import Mathlib

/-!
# tickgit: boundary parser (`lege`), TODO filter, ordering and blame

A shallow embedding of

* `vendor/github.com/augmentable-dev/lege/parse.go` (boundary table validation and the
  sliding-window parser `Parser.Parse`),
* `pkg/todos/todos.go` (`NewToDo`, `NewToDos`, `ToDos.Less`, `ToDos.Swap`), and
* `pkg/todos/blame.go` (`addedInPatch`, `ToDos.FindBlame`).

Conventions.

* A Go `string` is modelled by the sequence of its runes, `List Char`. Every string the
  parser compares is either a boundary delimiter or `string(window)`; the strings handed to
  the filter are `string(runes)` of a collection. For well-formed UTF-8 delimiters the byte
  comparison of Go coincides with the comparison of rune sequences.
* A reader is modelled by the finite list of runes it delivers before `io.EOF`; read
  failures other than `io.EOF` are not modelled.
* Go `int` counters are `Int` (the column arithmetic can go below zero); the 64-bit range
  is never approached by a rune count.
* A run-time panic (slice bounds out of range, index out of range) is the value `none`.
* `regexp.ReplaceAllLiteralString` is modelled for the one expression the filter compiles,
  `TODO(:|,)?`: matches are found leftmost first, the optional separator is taken when it
  is there, and a match is never empty.
* The slice `ToDos` holds pointers; a pointer is modelled by the index of its object in
  the list of todo objects, and the objects are distinct.
* The `go-git` repository is modelled by the answers it gives (`Repository`), the
  cancellation signal by the answer of each `select` on `ctx.Done()`.
-/

namespace Lege

/-! ## Boundary table -/

/-- Boundary are boundaries to use when collecting strings. -/
structure Boundary where
  Start : List Char
  End : List Char
deriving DecidableEq, Repr

/-- ParseOptions are options passed to a parser. The slice `Boundaries` may be `nil`,
which is `none` here. -/
structure ParseOptions where
  Boundaries : Option (List Boundary)
deriving DecidableEq, Repr

/-- The elements a `range options.Boundaries` loop visits (a nil slice has none). -/
def ParseOptions.rangeBoundaries (options : ParseOptions) : List Boundary :=
  options.Boundaries.getD []

/-- Source: `getAllStarts`. -/
def ParseOptions.getAllStarts (options : ParseOptions) : List (List Char) :=
  options.rangeBoundaries.foldl (fun starts boundary => starts ++ [boundary.Start]) []

/-- Source: `getAllEnds`. -/
def ParseOptions.getAllEnds (options : ParseOptions) : List (List Char) :=
  options.rangeBoundaries.foldl (fun ends boundary => ends ++ [boundary.End]) []

/-- The loop shared by `maxStartLength` and `maxEndLength`:
`if l := utf8.RuneCountInString(s); l > max then max = l`. -/
def maxRuneCount (strs : List (List Char)) : Nat :=
  strs.foldl (fun max s => if s.length > max then s.length else max) 0

/-- Source: `maxStartLength`. -/
def ParseOptions.maxStartLength (options : ParseOptions) : Nat :=
  maxRuneCount options.getAllStarts

/-- Source: `maxEndLength`. -/
def ParseOptions.maxEndLength (options : ParseOptions) : Nat :=
  maxRuneCount options.getAllEnds

/-- Source: `getCorrespondingBoundary`; `none` is the nil pointer. -/
def ParseOptions.getCorrespondingBoundary (options : ParseOptions) (start : List Char) :
    Option Boundary :=
  options.rangeBoundaries.find? (fun boundary => decide (start = boundary.Start))

/-- The errors `Validate` and `NewParser` can return, one constructor per message. -/
inductive ConfigError where
  /-- "must supply options to parser" -/
  | mustSupplyOptions
  /-- "must supply boundary options" -/
  | mustSupplyBoundaryOptions
  /-- "must supply at least one boundary" -/
  | atLeastOneBoundary
  /-- "must supply at least one start string" -/
  | atLeastOneStart
  /-- "must supply at least one end string" -/
  | atLeastOneEnd
  /-- "start cannot be an empty string" -/
  | emptyStart
  /-- "end cannot be an empty string" -/
  | emptyEnd
  /-- "start boundary %q must have a corresponding end boundary" -/
  | noCorrespondingEnd (start : List Char)
deriving DecidableEq, Repr

/-- Validate checks the parse options and returns an error if they are invalid;
`none` is the nil error. -/
def ParseOptions.Validate (options : ParseOptions) : Option ConfigError :=
  match options.Boundaries with
  | none => some .mustSupplyBoundaryOptions
  | some allBoundaries =>
    let allStarts := options.getAllStarts
    let allEnds := options.getAllEnds
    if allBoundaries.length = 0 then some .atLeastOneBoundary
    else if allStarts.length = 0 then some .atLeastOneStart
    else if allEnds.length = 0 then some .atLeastOneEnd
    else if allStarts.any (fun start => decide (start = [])) then some .emptyStart
    else if allEnds.any (fun e => decide (e = [])) then some .emptyEnd
    else
      match allStarts.find? (fun start => (options.getCorrespondingBoundary start).isNone) with
      | some start => some (.noCorrespondingEnd start)
      | none => none

/-- Parser is used to parse a source for collections to extract. -/
structure Parser where
  options : ParseOptions
deriving DecidableEq, Repr

/-- NewParser creates a parser; the argument `none` is the nil options pointer. -/
def NewParser (options : Option ParseOptions) : Except ConfigError Parser :=
  match options with
  | none => .error .mustSupplyOptions
  | some o =>
    match o.Validate with
    | some err => .error err
    | none => .ok { options := o }

/-- The table is valid: it is there, it is not empty, and no delimiter is empty. -/
def ValidTable (options : ParseOptions) : Prop :=
  ∃ bs, options.Boundaries = some bs ∧ bs ≠ [] ∧ ∀ b ∈ bs, b.Start ≠ [] ∧ b.End ≠ []

/-! ## Collections -/

/-- Location of a rune: `Line` and `Pos` are Go `int`s. -/
structure Location where
  Line : Int
  Pos : Int
deriving DecidableEq, Repr

/-- Modelled from the spec: the `Collection` type of `lege` (its declaring file is not part
of the sources): the captured runes, the boundary that opened the span and the two
locations. -/
structure Collection where
  runes : List Char
  Boundary : Boundary
  StartLocation : Location
  EndLocation : Location
deriving DecidableEq, Repr

/-- Modelled from the spec: `Collection.String`, the captured text. -/
def Collection.String (collection : Collection) : List Char := collection.runes

/-- Modelled from the spec: `addRune` appends the current rune to the collected text. -/
def Collection.addRune (collection : Collection) (r : Char) : Collection :=
  { collection with runes := collection.runes ++ [r] }

/-- Modelled from the spec: `trimRightRunes` takes the trailing `num` runes off the
collected text; reslicing below zero is a run-time panic (`none`). -/
def Collection.trimRightRunes (collection : Collection) (num : Nat) : Option Collection :=
  if num ≤ collection.runes.length then
    some { collection with runes := collection.runes.take (collection.runes.length - num) }
  else none

/-- Modelled from the spec: `Collections.getLast`, the active (last) collection; indexing an
empty slice is a run-time panic (`none`). -/
def getLast (collections : List Collection) : Option Collection :=
  collections.getLast?

/-- Writing through the pointer returned by `getLast`: the last element is replaced. -/
def setLast (collections : List Collection) (collection : Collection) : List Collection :=
  collections.dropLast ++ [collection]

/-! ## The parser -/

/-- The zero rune a fresh window is filled with. -/
def zeroRune : Char := Char.ofNat 0

/-- Source: `newWindow`. -/
def Parser.newWindow (parser : Parser) : List Char :=
  let maxStartLen := parser.options.maxStartLength
  let maxEndLen := parser.options.maxEndLength
  let windowSize := if maxStartLen > maxEndLen then maxStartLen else maxEndLen
  List.replicate windowSize zeroRune

/-- Source: `windowMatchesString`: checks if the runes in the window are equivalent to a
string; returns the verdict and the window string compared. -/
def windowMatchesString (window : List Char) (compareTo : List Char) : Bool × List Char :=
  let runesInOption := compareTo.length
  let winString :=
    if runesInOption < window.length then window.drop (window.length - runesInOption)
    else window
  (decide (compareTo = winString), winString)

/-- The loop variables of `Parse`. -/
structure ParseState where
  window : List Char
  index : Nat
  lineCounter : Int
  positionCounter : Int
  collections : List Collection
  collecting : Bool
deriving DecidableEq, Repr

/-- The state `Parse` enters its loop with. -/
def Parser.initState (parser : Parser) : ParseState :=
  { window := parser.newWindow, index := 0, lineCounter := 1, positionCounter := 1,
    collections := [], collecting := false }

/-- The scanning branch: the first boundary (in table order) whose start the window matches
opens a collection that starts with the current rune. -/
def scanStarts (window : List Char) (c : Char) (lineCounter positionCounter : Int) :
    List Boundary → Option Collection
  | [] => none
  | boundary :: rest =>
    if (windowMatchesString window boundary.Start).1 then
      some { runes := [c], Boundary := boundary,
             StartLocation := { Line := lineCounter, Pos := positionCounter },
             EndLocation := { Line := 0, Pos := 0 } }
    else scanStarts window c lineCounter positionCounter rest

/-- The window shift at the end of an iteration: every slot takes the content of the next
one, the last slot takes the current rune. -/
def shiftWindow : List Char → Char → List Char
  | [], _ => []
  | [_], c => [c]
  | _ :: y :: rest, c => y :: shiftWindow (y :: rest) c

/-- The part of an iteration after the two branches: shift the window and advance the
counters. -/
def advance (s : ParseState) (c : Char) (collections : List Collection) (collecting : Bool) :
    ParseState :=
  let positionCounter := s.positionCounter + 1
  { window := shiftWindow s.window c,
    index := s.index + 1,
    lineCounter := if c = '\n' then s.lineCounter + 1 else s.lineCounter,
    positionCounter := if c = '\n' then 1 else positionCounter,
    collections := collections,
    collecting := collecting }

/-- One iteration of the loop of `Parse` on the rune `c` just read. -/
def Parser.step (parser : Parser) (s : ParseState) (c : Char) : Option ParseState :=
  if s.index < s.window.length then
    some { s with window := s.window.set s.index c, index := s.index + 1,
                  positionCounter := s.positionCounter + 1 }
  else if !s.collecting then
    match scanStarts s.window c s.lineCounter s.positionCounter
        parser.options.rangeBoundaries with
    | some collection => some (advance s c (s.collections ++ [collection]) true)
    | none => some (advance s c s.collections false)
  else
    match getLast s.collections with
    | none => none
    | some currentCollection =>
      let endOption := currentCollection.Boundary.End
      if (windowMatchesString s.window endOption).1 then
        let runeCount := endOption.length
        match currentCollection.trimRightRunes runeCount with
        | none => none
        | some trimmed =>
          let closed : Collection :=
            { trimmed with
              EndLocation := { Line := s.lineCounter,
                               Pos := s.positionCounter - runeCount - 1 } }
          some (advance s c (setLast s.collections closed) false)
      else
        some (advance s c (setLast s.collections (currentCollection.addRune c)) true)

/-- The loop of `Parse` over the runes the reader delivers. -/
def Parser.run (parser : Parser) : ParseState → List Char → Option ParseState
  | s, [] => some s
  | s, c :: rest => (parser.step s c).bind (fun s' => parser.run s' rest)

/-- What `Parse` does at `io.EOF`: a collection still open is dropped. -/
def finish (s : ParseState) : Option (List Collection) :=
  if s.collecting then
    if s.collections.length = 0 then none else some s.collections.dropLast
  else some s.collections

/-- Parse takes a reader (the runes it delivers) and returns the collections. -/
def Parser.Parse (parser : Parser) (input : List Char) : Option (List Collection) :=
  (parser.run parser.initState input).bind finish

/-! ## Invariant of the loop -/

/-- The table the parser scans. -/
def Parser.table (parser : Parser) : List Boundary := parser.options.rangeBoundaries

/-- The fixed size of the window. -/
def Parser.windowSize (parser : Parser) : Nat := parser.newWindow.length

/-- A collection is closed with respect to the runes `done` read so far: its `EndLocation`
has been written (the line of a written location is at least 1, a fresh one is zero), and
its start delimiter, its text and its end delimiter stand one after the other in `done`. -/
def Closed (done : List Char) (c : Collection) : Prop :=
  1 ≤ c.EndLocation.Line ∧ c.Boundary.Start ++ c.runes ++ c.Boundary.End <:+: done

/-- A collection is open with respect to the runes `done` read so far: its `EndLocation`
is still the zero value, and `done` ends with its start delimiter followed by its runes. -/
def Open (done : List Char) (c : Collection) : Prop :=
  c.EndLocation = { Line := 0, Pos := 0 } ∧ c.runes ≠ [] ∧
    c.Boundary.Start ++ c.runes <:+ done

/-- The loop invariant: `s` is a state of the loop after the runes `done` have been read. -/
structure Reached (parser : Parser) (done : List Char) (s : ParseState) : Prop where
  window_length : s.window.length = parser.windowSize
  index_eq : s.index = done.length
  window_fill : done.length ≤ s.window.length → s.window.take done.length = done
  window_full : s.window.length ≤ done.length →
    s.window = done.drop (done.length - s.window.length)
  line_pos : 1 ≤ s.lineCounter
  filling : done.length < s.window.length → s.collecting = false
  in_table : ∀ c ∈ s.collections, c.Boundary ∈ parser.table
  scanning : s.collecting = false → ∀ c ∈ s.collections, Closed done c
  collecting : s.collecting = true →
    ∃ cs cur, s.collections = cs ++ [cur] ∧ (∀ c ∈ cs, Closed done c) ∧ Open done cur

/-- The string `pat` stands in `input` from the rune of index `k` on. -/
def occursAt (pat input : List Char) (k : Nat) : Prop := pat <+: input.drop k

instance (pat input : List Char) (k : Nat) : Decidable (occursAt pat input k) := by
  unfold occursAt; infer_instance

/-- The hypotheses of the round-trip property as the specification states it: the table is
valid, `(startStr, endStr)` is one of its boundaries, and in the input
`pre ++ startStr ++ inner ++ endStr ++ suf` no boundary start occurs other than `startStr`
at its written place and `endStr` does not occur before its written place. -/
def RoundTripInput (parser : Parser) (startStr endStr pre inner suf : List Char) : Prop :=
  parser.options.Validate = none ∧
  { Start := startStr, End := endStr } ∈ parser.table ∧
  (∀ b ∈ parser.table, ∀ k ≤ (pre ++ startStr ++ inner ++ endStr ++ suf).length,
    occursAt b.Start (pre ++ startStr ++ inner ++ endStr ++ suf) k →
      k = pre.length ∧ b.Start = startStr) ∧
  (∀ k ≤ (pre ++ startStr ++ inner ++ endStr ++ suf).length,
    occursAt endStr (pre ++ startStr ++ inner ++ endStr ++ suf) k →
      pre.length + startStr.length + inner.length ≤ k)

instance (parser : Parser) (startStr endStr pre inner suf : List Char) :
    Decidable (RoundTripInput parser startStr endStr pre inner suf) := by
  unfold RoundTripInput; infer_instance

/-! ## Tables and inputs of the worked examples -/

/-- A table whose end delimiter is longer than its start delimiter. -/
def longEndParser : Parser :=
  { options := { Boundaries := some [{ Start := "a".toList, End := "bc".toList }] } }

/-- A table in which two boundaries share their start delimiter. -/
def sharedStartParser : Parser :=
  { options := { Boundaries := some [{ Start := "a".toList, End := "b".toList },
                                     { Start := "a".toList, End := "c".toList }] } }


/-- The table of the specification's example: line comments, then block comments. -/
def slashTable : List Boundary :=
  [{ Start := "//".toList, End := "\n".toList }, { Start := "/*".toList, End := "*/".toList }]

/-- The parser over `slashTable`. -/
def slashParser : Parser := { options := { Boundaries := some slashTable } }

/-- A table in which the start of the first boundary ends with the start of the second. -/
def overlapParser : Parser :=
  { options := { Boundaries := some [{ Start := "ab".toList, End := "x".toList },
                                     { Start := "b".toList, End := "y".toList }] } }

/-- A state of the loop over `overlapParser` in which the window holds `ab`. -/
def overlapState : ParseState :=
  { window := "ab".toList, index := 2, lineCounter := 1, positionCounter := 3,
    collections := [], collecting := false }

/-- The line and column of the rune at index `i` of `input` as the specification counts
them: the line is one more than the number of newlines before the rune, the column is one
more than the number of runes between the preceding newline (or the start of the input) and
the rune. -/
def locationOf (input : List Char) (i : Nat) : Location :=
  let before := input.take i
  { Line := 1 + before.count (Char.ofNat 10),
    Pos := 1 + (before.reverse.takeWhile (fun r => r != Char.ofNat 10)).length }

/-- The table with the block comment alone. -/
def blockParser : Parser :=
  { options := { Boundaries := some [{ Start := "/*".toList, End := "*/".toList }] } }

/-- A second invariant of the loop, about end delimiters: no closed collection contains its
end delimiter, and no tested prefix of the runes of the open collection ends with its end
delimiter. -/
structure EndFree (s : ParseState) : Prop where
  scanning : s.collecting = false → ∀ c ∈ s.collections, ¬ c.Boundary.End <:+: c.runes
  collecting : s.collecting = true →
    ∃ cs cur, s.collections = cs ++ [cur] ∧ (∀ c ∈ cs, ¬ c.Boundary.End <:+: c.runes) ∧
      ∀ p, p <+: cur.runes → p ≠ [] → p ≠ cur.runes → ¬ cur.Boundary.End <:+ p

end Lege

namespace Todos

/-! ## The TODO filter -/

/-- Modelled from the spec: the `Comment` type of package `comments` (its declaring file is
not part of the sources): a parser collection together with the path of its file. -/
structure Comment where
  Collection : Lege.Collection
  FilePath : List Char
deriving DecidableEq, Repr

/-- Modelled from the spec: `Comment.String`, the text of the embedded collection. -/
def Comment.String (comment : Comment) : List Char := comment.Collection.String

/-- The fields of a `go-git` commit object that this package reads. -/
structure ObjectCommit where
  Hash : List Char
  AuthorWhen : Int
deriving DecidableEq, Repr

/-- ToDo represents a ToDo item; a nil `Commit` pointer is `none`. -/
structure ToDo where
  Comment : Comment
  String : List Char
  Commit : Option ObjectCommit
deriving DecidableEq, Repr

/-- The marker literal `"TODO"`. -/
def todoMarker : List Char := ['T', 'O', 'D', 'O']

/-- Library function `strings.Contains`: `substr` stands somewhere in `s`. -/
def stringsContains : List Char → List Char → Bool
  | [], substr => substr.isEmpty
  | c :: s, substr => substr.isPrefixOf (c :: s) || stringsContains s substr

/-- The number of runes the expression `TODO(:|,)?` matches at the head of `s`
(`0`: no match there). -/
def markerMatchLength (s : List Char) : Nat :=
  if todoMarker.isPrefixOf s then
    match s.drop 4 with
    | sep :: _ => if sep = ':' ∨ sep = ',' then 5 else 4
    | [] => 4
  else 0

/-- The scan of `ReplaceAllLiteralString(s, "")` for `TODO(:|,)?`: `skip` counts the runes
of the current match that are still to be dropped. -/
def replaceAux : Nat → List Char → List Char
  | _, [] => []
  | skip + 1, _ :: s => replaceAux skip s
  | 0, c :: s =>
    match markerMatchLength (c :: s) with
    | 0 => c :: replaceAux 0 s
    | n + 1 => replaceAux n s

/-- Library function `re.ReplaceAllLiteralString(s, "")` with `re` compiled from
`TODO(:|,)?`. -/
def replaceAllMarker (s : List Char) : List Char := replaceAux 0 s

/-- Library function `strings.Trim(s, " ")`: all leading and trailing spaces go. -/
def stringsTrimSpace (s : List Char) : List Char :=
  (s.rdropWhile (fun r => r == ' ')).dropWhile (fun r => r == ' ')

/-- NewToDo produces a pointer to a ToDo from a comment; `none` is the nil pointer. -/
def NewToDo (comment : Comment) : Option ToDo :=
  let s := comment.String
  if !stringsContains s todoMarker then none
  else
    let s := replaceAllMarker comment.String
    let s := stringsTrimSpace s
    some { Comment := comment, String := s, Commit := none }

/-- A comment with the given text (no boundary, no locations, no path), for the worked
examples. -/
def commentOf (text : List Char) : Comment :=
  { Collection := { runes := text, Boundary := { Start := [], End := [] },
                    StartLocation := { Line := 0, Pos := 0 },
                    EndLocation := { Line := 0, Pos := 0 } },
    FilePath := [] }

/-- NewToDos produces a list of ToDos from a list of comments. -/
def NewToDos (comments : List Comment) : List ToDo :=
  comments.foldl
    (fun todos comment =>
      match NewToDo comment with
      | some todo => todos ++ [todo]
      | none => todos)
    []

/-! ## Ordering -/

/-- Less compares two todos by their creation time; an index out of range is a run-time
panic (`none`). `time.Time.Before` is the comparison of the two instants. -/
def ToDos.Less (t : List ToDo) (i j : Nat) : Option Bool :=
  match t[i]?, t[j]? with
  | some first, some second =>
    match first.Commit with
    | none => some true
    | some firstCommit =>
      match second.Commit with
      | none => some false
      | some secondCommit => some (decide (firstCommit.AuthorWhen < secondCommit.AuthorWhen))
  | _, _ => none

/-- Swap swaps two todos. -/
def ToDos.Swap (t : List ToDo) (i j : Nat) : List ToDo :=
  match t[i]?, t[j]? with
  | some first, some second => (t.set i second).set j first
  | _, _ => t

/-- Library function `sort.insertionSort`, inner loop:
`for j := i; j > 0 && data.Less(j, j-1); j-- { data.Swap(j, j-1) }`. -/
def insertDown (t : List ToDo) : Nat → List ToDo
  | 0 => t
  | j + 1 =>
    if ToDos.Less t (j + 1) j = some true then insertDown (ToDos.Swap t (j + 1) j) j else t

/-- Library function `sort.Sort` on a slice of at most twelve elements, where it is
`insertionSort(data, 0, n)`. -/
def insertionSort (t : List ToDo) : List ToDo :=
  (List.range' 1 (t.length - 1)).foldl insertDown t

/-- A ToDo of the worked examples: text `TODO x`, the given commit. -/
def todoWith (commit : Option ObjectCommit) : ToDo :=
  { Comment := commentOf "TODO x".toList, String := "x".toList, Commit := commit }

/-- A commit of the worked examples: the hash and the author time. -/
def commitAt (hash : List Char) (authorWhen : Int) : ObjectCommit :=
  { Hash := hash, AuthorWhen := authorWhen }

/-! ## Blame

The history collaborator (`go-git`) is modelled by the answers it gives: the commits the
log iterator yields before `io.EOF`, the ancestor test and the patch between two commits,
each of which can fail. An ancestor test or a patch is computed afresh at every call, so
its answer (and whether it fails) may differ from one call to the next: the answer is a
function of the call as well as of the two commits. The cancellation signal is modelled
by the answer `ctxDone k` of the `select` on `ctx.Done()` in the callback for the `k`-th
commit of the iterator (the timeout and a `cancel()` called by the progress callback are
both behind this answer).
The calls made to the collaborator and to the progress callback are recorded as events. -/

deriving instance DecidableEq for Except

/-- An error of the history collaborator. -/
structure HistoryError where
  code : Nat
deriving DecidableEq, Repr

/-- Library type `diff.Operation`. -/
inductive Operation where
  | Equal
  | Add
  | Delete
deriving DecidableEq, Repr

/-- Library type `diff.Chunk`: its content and its type. -/
structure Chunk where
  Content : List Char
  ChunkType : Operation
deriving DecidableEq, Repr

/-- Library type `diff.File`: only the path is read. -/
structure DiffFile where
  Path : List Char
deriving DecidableEq, Repr

/-- Library type `diff.FilePatch`; a nil file is `none`. -/
structure FilePatch where
  IsBinary : Bool
  From : Option DiffFile
  To : Option DiffFile
  Chunks : List Chunk
deriving DecidableEq, Repr

/-- One call of `addedInPatch`: the one made in the callback for the commit of number
`step` of the iterator, for the todo of pointer `pointer`. -/
structure Call where
  step : Nat
  pointer : Nat
deriving DecidableEq, Repr

/-- The answers of the history collaborator: `repo.Log` from a hash (the commits the
iterator yields), and, at a given call, `first.IsAncestor(second)` and
`first.Patch(second)`. -/
structure Repository where
  Log : List Char → Except HistoryError (List ObjectCommit)
  IsAncestor : Call → ObjectCommit → ObjectCommit → Except HistoryError Bool
  Patch : Call → ObjectCommit → ObjectCommit → Except HistoryError (List FilePatch)

/-- The calls `FindBlame` makes to its collaborators. -/
inductive Event where
  | ancestorTest (firstCommit secondCommit : ObjectCommit)
  | diff (firstCommit secondCommit : ObjectCommit)
  | progress (commit : ObjectCommit) (remainingToDos : Nat)
deriving DecidableEq, Repr

/-- The loop of `addedInPatch` over the chunks of a file patch. -/
def chunksAdded (text : List Char) : List Chunk → Bool
  | [] => false
  | chunk :: chunks =>
    if chunk.ChunkType = Operation.Add then
      if stringsContains chunk.Content text then true else chunksAdded text chunks
    else chunksAdded text chunks

/-- The loop of `addedInPatch` over the file patches. -/
def patchesAdded (t : ToDo) : List FilePatch → Bool
  | [] => false
  | filePatch :: patches =>
    if filePatch.IsBinary then patchesAdded t patches
    else
      match filePatch.To with
      | none => patchesAdded t patches
      | some toFile =>
        if toFile.Path = t.Comment.FilePath then
          if chunksAdded t.Comment.String filePatch.Chunks then true
          else patchesAdded t patches
        else patchesAdded t patches

/-- The function `addedInPatch` checks if a todo item exists in the tree of a given
commit. -/
def ToDo.addedInPatch (t : ToDo) (repo : Repository) (call : Call)
    (firstCommit secondCommit : ObjectCommit) : Except HistoryError Bool :=
  match repo.IsAncestor call firstCommit secondCommit with
  | .error err => .error err
  | .ok false => .ok false
  | .ok true =>
    match repo.Patch call firstCommit secondCommit with
    | .error err => .error err
    | .ok patches => .ok (patchesAdded t patches)

/-- The calls one `addedInPatch` makes: the ancestor test, and the diff when the test
says yes. -/
def addedInPatchEvents (repo : Repository) (call : Call)
    (firstCommit secondCommit : ObjectCommit) : List Event :=
  Event.ancestorTest firstCommit secondCommit ::
    (match repo.IsAncestor call firstCommit secondCommit with
     | .ok true => [Event.diff firstCommit secondCommit]
     | _ => [])

/-- The variables of `FindBlame`: the todo objects (the slice `t` holds pointers to them,
a pointer is the index of its object), the pointers still in `remainingTodos`, the previous
commit, and the events so far. -/
structure BlameState where
  todos : List ToDo
  remainingTodos : List Nat
  prevCommit : ObjectCommit
  events : List Event
deriving DecidableEq, Repr

/-- What the loop over `remainingTodos` leaves: the error or the new list of remaining
todos, the todo objects, the events. -/
structure LoopResult where
  result : Except HistoryError (List Nat)
  todos : List ToDo
  events : List Event

/-- The loop over `remainingTodos` in the callback of `FindBlame` for the commit of number
`k`. -/
def blameLoop (repo : Repository) (k : Nat) (commit prevCommit : ObjectCommit) :
    List Nat → List ToDo → List Nat → List Event → LoopResult
  | [], todos, newRemainingTodos, events =>
    { result := .ok newRemainingTodos, todos := todos, events := events }
  | idx :: rest, todos, newRemainingTodos, events =>
    match todos[idx]? with
    | none => blameLoop repo k commit prevCommit rest todos newRemainingTodos events
    | some todo =>
      let call : Call := { step := k, pointer := idx }
      let events := events ++ addedInPatchEvents repo call commit prevCommit
      match todo.addedInPatch repo call commit prevCommit with
      | .error err => { result := .error err, todos := todos, events := events }
      | .ok true =>
        blameLoop repo k commit prevCommit rest
          (todos.set idx { todo with Commit := some prevCommit }) newRemainingTodos events
      | .ok false =>
        blameLoop repo k commit prevCommit rest todos (newRemainingTodos ++ [idx]) events

/-- What the callback of `ForEach` returns: nil (go on with the next commit),
`storer.ErrStop`, or an error. -/
inductive Flow where
  | next (s : BlameState)
  | stop (s : BlameState)
  | fail (err : HistoryError) (s : BlameState)

/-- The callback `FindBlame` hands to `commitIter.ForEach`, called for the `k`-th commit;
`hasCb` says whether the progress callback `cb` is there. -/
def blameCallback (repo : Repository) (ctxDone : Nat → Bool) (hasCb : Bool) (k : Nat)
    (s : BlameState) (commit : ObjectCommit) : Flow :=
  if s.remainingTodos.length = 0 then .stop s
  else if s.prevCommit.Hash = commit.Hash then .next s
  else if ctxDone k then .stop s
  else
    let r := blameLoop repo k commit s.prevCommit s.remainingTodos s.todos [] s.events
    match r.result with
    | .error err => .fail err { s with todos := r.todos, events := r.events }
    | .ok newRemainingTodos =>
      .next { todos := r.todos,
              remainingTodos := newRemainingTodos,
              prevCommit := commit,
              events := r.events ++
                (if hasCb then [Event.progress commit newRemainingTodos.length] else []) }

/-- What `FindBlame` leaves: the error it returns (`none`: nil), the todo objects, the
events. -/
structure BlameResult where
  err : Option HistoryError
  todos : List ToDo
  events : List Event
deriving DecidableEq, Repr

/-- Library function `commitIter.ForEach`: the callback is called for each commit; at
`storer.ErrStop` the iteration stops without error, at any other error with that error. -/
def forEach (repo : Repository) (ctxDone : Nat → Bool) (hasCb : Bool) :
    Nat → BlameState → List ObjectCommit → BlameResult
  | _, s, [] => { err := none, todos := s.todos, events := s.events }
  | k, s, commit :: rest =>
    match blameCallback repo ctxDone hasCb k s commit with
    | .next s' => forEach repo ctxDone hasCb (k + 1) s' rest
    | .stop s' => { err := none, todos := s'.todos, events := s'.events }
    | .fail err s' => { err := some err, todos := s'.todos, events := s'.events }

/-- The state `FindBlame` starts the iteration with: every todo remains, the previous
commit is `from`. -/
def blameInit (t : List ToDo) (fromCommit : ObjectCommit) : BlameState :=
  { todos := t, remainingTodos := List.range t.length, prevCommit := fromCommit,
    events := [] }

/-- FindBlame sets the blame information on each todo in a set of todos. -/
def ToDos.FindBlame (t : List ToDo) (ctxDone : Nat → Bool) (repo : Repository)
    (fromCommit : ObjectCommit) (hasCb : Bool) : BlameResult :=
  match repo.Log fromCommit.Hash with
  | .error err => { err := some err, todos := t, events := [] }
  | .ok commits => forEach repo ctxDone hasCb 0 (blameInit t fromCommit) commits

/-- The state after the callbacks for the given commits, when each of them returned nil. -/
def iterate (repo : Repository) (ctxDone : Nat → Bool) (hasCb : Bool) :
    Nat → BlameState → List ObjectCommit → Option BlameState
  | _, s, [] => some s
  | k, s, commit :: rest =>
    match blameCallback repo ctxDone hasCb k s commit with
    | .next s' => iterate repo ctxDone hasCb (k + 1) s' rest
    | _ => none

/-! ### The attribution as the specification words it -/

/-- A step of the history: the snapshot `S` yielded as commit number `call` of the
iterator, and the snapshot `prev` before it. -/
structure Step where
  call : Nat
  snapshot : ObjectCommit
  prev : ObjectCommit
deriving DecidableEq, Repr

/-- The steps of the history: each snapshot `S` paired with `prev`, where `prev` is first
`from` and afterwards the last snapshot of a step; a snapshot whose hash equals that of
`prev` is skipped. The first commit of the list has the number `k`. -/
def pairSteps (k : Nat) (prev : ObjectCommit) : List ObjectCommit → List Step
  | [] => []
  | commit :: rest =>
    if prev.Hash = commit.Hash then pairSteps (k + 1) prev rest
    else { call := k, snapshot := commit, prev := prev } :: pairSteps (k + 1) commit rest

/-- The steps of the history up to the cancellation: as `pairSteps`, ending before the
first snapshot that is not skipped and at which the signal is set. -/
def walkSteps (ctxDone : Nat → Bool) (k : Nat) (prev : ObjectCommit) :
    List ObjectCommit → List Step
  | [] => []
  | commit :: rest =>
    if prev.Hash = commit.Hash then walkSteps ctxDone (k + 1) prev rest
    else if ctxDone k then []
    else { call := k, snapshot := commit, prev := prev } ::
      walkSteps ctxDone (k + 1) commit rest

/-- The test of the todo of pointer `pointer` at a step. -/
def testAt (repo : Repository) (pointer : Nat) (todo : ToDo) (st : Step) :
    Except HistoryError Bool :=
  todo.addedInPatch repo { step := st.call, pointer := pointer } st.snapshot st.prev

/-- The `prev` of the first step at which `addedInPatch` is true for the todo. -/
def blameOf (repo : Repository) (pointer : Nat) (todo : ToDo) (steps : List Step) :
    Option ObjectCommit :=
  (steps.find? (fun st => decide (testAt repo pointer todo st = .ok true))).map
    (fun st => st.prev)

/-- The todo with the commit of its origin, when one was found. -/
def withOrigin (todo : ToDo) (origin : Option ObjectCommit) : ToDo :=
  match origin with
  | some commit => { todo with Commit := some commit }
  | none => todo

/-! ### A history for the worked examples -/

/-- Three commits, newest first. -/
def commitC : ObjectCommit := commitAt "c".toList 30

/-- The second commit. -/
def commitB : ObjectCommit := commitAt "b".toList 20

/-- The oldest commit. -/
def commitA : ObjectCommit := commitAt "a".toList 10

/-- A repository with the history `c`, `b`, `a` in which every commit is an ancestor of
the newer ones and the patch from `a` to `b` adds the line `// TODO x` to the file with the
empty path; the other patches are empty. -/
def exampleRepo : Repository :=
  { Log := fun _ => .ok [commitC, commitB, commitA],
    IsAncestor := fun _ first second =>
      .ok (decide (first.AuthorWhen ≤ second.AuthorWhen)),
    Patch := fun _ first second =>
      if first = commitA ∧ second = commitB then
        .ok [{ IsBinary := false, From := none, To := some { Path := [] },
               Chunks := [{ Content := "// TODO x\n".toList, ChunkType := Operation.Add }] }]
      else .ok [] }

/-- A repository whose patches cannot be computed. -/
def brokenRepo : Repository :=
  { Log := fun _ => .ok [commitC, commitB, commitA],
    IsAncestor := fun _ _ _ => .ok true,
    Patch := fun _ _ _ => .error { code := 1 } }

/-- The cancellation signal that is never set. -/
def neverDone : Nat → Bool := fun _ => false

/-- The cancellation signal that is set from the start. -/
def alwaysDone : Nat → Bool := fun _ => true

/-! ### One step, as the specification words it -/

/-- The pointer `idx` stays in the remaining list at the step `(commit, prev)` of number
`k`: the test of its todo says no. -/
def staysRemaining (repo : Repository) (k : Nat) (commit prev : ObjectCommit)
    (todos : List ToDo) (idx : Nat) : Bool :=
  match todos[idx]? with
  | some todo =>
    decide (todo.addedInPatch repo { step := k, pointer := idx } commit prev = .ok false)
  | none => false

/-- The todo object of pointer `i` after a step `(commit, prev)` of number `k` in which
the pointers `examined` were tested: it has the commit `prev` when it was examined and
its test said yes, and it is untouched otherwise. -/
def attributed (repo : Repository) (k : Nat) (commit prev : ObjectCommit)
    (examined : List Nat) (i : Nat) (todo : ToDo) : ToDo :=
  if i ∈ examined ∧
      todo.addedInPatch repo { step := k, pointer := i } commit prev = .ok true then
    withOrigin todo (some prev)
  else todo

/-- The todo object of pointer `i` after the given steps: when the pointer was in the
remaining list, the todo has the origin `blameOf` finds in those steps, and it is
untouched otherwise. -/
def resolved (repo : Repository) (steps : List Step) (remaining : List Nat) (i : Nat)
    (todo : ToDo) : ToDo :=
  if i ∈ remaining then withOrigin todo (blameOf repo i todo steps) else todo

/-- A ToDo of the worked examples: text `TODO x` in the file of the given path. -/
def todoIn (path : List Char) : ToDo :=
  { Comment := { (commentOf "TODO x".toList) with FilePath := path },
    String := "x".toList, Commit := none }

/-- A repository with the history `c`, `b`, `a` in which every patch computed for the
todo of pointer 0 adds the line `// TODO x` to the file `f`, and no patch can be computed
for any other todo. -/
def partlyBrokenRepo : Repository :=
  { Log := fun _ => .ok [commitC, commitB, commitA],
    IsAncestor := fun _ _ _ => .ok true,
    Patch := fun call _ _ =>
      if call.pointer = 0 then
        .ok [{ IsBinary := false, From := none, To := some { Path := "f".toList },
               Chunks := [{ Content := "// TODO x\n".toList, ChunkType := Operation.Add }] }]
      else .error { code := 1 } }

/-- The cancellation signal that is set from the third commit of the iterator on. -/
def doneFromTwo : Nat → Bool := fun k => decide (2 ≤ k)

/-- A repository with the history `c`, `b`, `a` in which the patch from `b` to `c` adds
the line `// TODO x` to the file `f` and the patch from `a` to `b` adds it to the file
`g`. -/
def twoFileRepo : Repository :=
  { Log := fun _ => .ok [commitC, commitB, commitA],
    IsAncestor := fun _ _ _ => .ok true,
    Patch := fun _ first second =>
      if first = commitB ∧ second = commitC then
        .ok [{ IsBinary := false, From := none, To := some { Path := "f".toList },
               Chunks := [{ Content := "// TODO x\n".toList, ChunkType := Operation.Add }] }]
      else if first = commitA ∧ second = commitB then
        .ok [{ IsBinary := false, From := none, To := some { Path := "g".toList },
               Chunks := [{ Content := "// TODO x\n".toList, ChunkType := Operation.Add }] }]
      else .ok [] }

end Todos

/-! # Theorems -/

namespace Lege

/-! ## Boundary-table validation -/

theorem foldl_collect {α β : Type} (f : α → β) (l : List α) (init : List β) :
    l.foldl (fun acc a => acc ++ [f a]) init = init ++ l.map f := by
  induction l generalizing init with
  | nil => simp
  | cons a l ih => simp [ih]

theorem getAllStarts_eq (options : ParseOptions) :
    options.getAllStarts = options.rangeBoundaries.map (fun b => b.Start) := by
  simp [ParseOptions.getAllStarts, foldl_collect]

theorem getAllEnds_eq (options : ParseOptions) :
    options.getAllEnds = options.rangeBoundaries.map (fun b => b.End) := by
  simp [ParseOptions.getAllEnds, foldl_collect]

/-- Every start of the table has a boundary that carries it, so the last loop of `Validate`
finds nothing. -/
theorem find_corresponding_none (options : ParseOptions) :
    options.getAllStarts.find?
      (fun start => (options.getCorrespondingBoundary start).isNone) = none := by
  rw [List.find?_eq_none]
  intro start hstart
  rw [getAllStarts_eq, List.mem_map] at hstart
  obtain ⟨b, hb, rfl⟩ := hstart
  simp only [ParseOptions.getCorrespondingBoundary, Option.isNone_iff_eq_none,
    List.find?_eq_none, Bool.not_eq_true, not_forall]
  exact ⟨b, hb, by simp⟩

theorem validate_unfold (options : ParseOptions) (bs : List Boundary)
    (hB : options.Boundaries = some bs) :
    options.Validate =
      if bs = [] then some .atLeastOneBoundary
      else if ∃ b ∈ bs, b.Start = [] then some .emptyStart
      else if ∃ b ∈ bs, b.End = [] then some .emptyEnd
      else none := by
  have hr : options.rangeBoundaries = bs := by simp [ParseOptions.rangeBoundaries, hB]
  have hfind := find_corresponding_none options
  have hs : (options.getAllStarts.any (fun start => decide (start = [])) = true) ↔
      ∃ b ∈ bs, b.Start = [] := by
    rw [getAllStarts_eq, hr]; simp
  have he : (options.getAllEnds.any (fun e => decide (e = [])) = true) ↔
      ∃ b ∈ bs, b.End = [] := by
    rw [getAllEnds_eq, hr]; simp
  have hls : options.getAllStarts.length = bs.length := by rw [getAllStarts_eq, hr]; simp
  have hle : options.getAllEnds.length = bs.length := by rw [getAllEnds_eq, hr]; simp
  unfold ParseOptions.Validate
  rw [hB]
  simp only [hfind, hls, hle]
  by_cases h0 : bs = []
  · simp [h0]
  · have hlen : ¬ bs.length = 0 := by simpa using h0
    simp only [hlen, h0, if_false]
    by_cases h1 : ∃ b ∈ bs, b.Start = []
    · rw [if_pos (hs.mpr h1), if_pos h1]
    · rw [if_neg (fun h => h1 (hs.mp h)), if_neg h1]
      by_cases h2 : ∃ b ∈ bs, b.End = []
      · rw [if_pos (he.mpr h2), if_pos h2]
      · rw [if_neg (fun h => h2 (he.mp h)), if_neg h2]

theorem validate_eq_none_iff (options : ParseOptions) :
    options.Validate = none ↔ ValidTable options := by
  unfold ValidTable
  cases hB : options.Boundaries with
  | none => simp [ParseOptions.Validate, hB]
  | some bs =>
    rw [validate_unfold options bs hB]
    simp only [Option.some.injEq, exists_eq_left']
    by_cases h0 : bs = []
    · simp [h0]
    · rw [if_neg h0]
      by_cases h1 : ∃ b ∈ bs, b.Start = []
      · rw [if_pos h1]
        obtain ⟨b, hb, hbs⟩ := h1
        exact ⟨fun h => (by cases h), fun h => absurd hbs (h.2 b hb).1⟩
      · rw [if_neg h1]
        by_cases h2 : ∃ b ∈ bs, b.End = []
        · rw [if_pos h2]
          obtain ⟨b, hb, hbe⟩ := h2
          exact ⟨fun h => (by cases h), fun h => absurd hbe (h.2 b hb).2⟩
        · rw [if_neg h2]
          simp only [true_iff]
          exact ⟨h0, fun b hb => ⟨fun h => h1 ⟨b, hb, h⟩, fun h => h2 ⟨b, hb, h⟩⟩⟩

theorem validate_ne_noCorrespondingEnd (options : ParseOptions) (start : List Char) :
    options.Validate ≠ some (.noCorrespondingEnd start) := by
  cases hB : options.Boundaries with
  | none => simp [ParseOptions.Validate, hB]
  | some bs =>
    rw [validate_unfold options bs hB]
    split_ifs <;> simp

/-- Claim C7. `Validate` returns an error exactly when the boundary list is nil or empty or
some boundary has an empty `Start` or an empty `End`; it never returns the
"must have a corresponding end boundary" error; `NewParser` returns an error exactly when
the options are nil or `Validate` returns one, and otherwise it returns a parser over the
options it was given. -/
theorem C7_validate_and_newParser :
    (∀ options : ParseOptions,
      (∃ err, options.Validate = some err) ↔
        (options.Boundaries = none ∨ options.Boundaries = some [] ∨
          (∃ b ∈ options.rangeBoundaries, b.Start = []) ∨
          (∃ b ∈ options.rangeBoundaries, b.End = []))) ∧
    (∀ (options : ParseOptions) (start : List Char),
      options.Validate ≠ some (.noCorrespondingEnd start)) ∧
    (∀ o : Option ParseOptions,
      (∃ err, NewParser o = .error err) ↔
        (o = none ∨ ∃ options, o = some options ∧ ∃ err, options.Validate = some err)) ∧
    (∀ o : Option ParseOptions,
      (¬ ∃ err, NewParser o = .error err) →
        ∃ options, o = some options ∧ NewParser o = .ok { options := options }) := by
  refine ⟨?_, validate_ne_noCorrespondingEnd, ?_, ?_⟩
  · intro options
    cases hB : options.Boundaries with
    | none => simp [ParseOptions.Validate, hB]
    | some bs =>
      have hr : options.rangeBoundaries = bs := by simp [ParseOptions.rangeBoundaries, hB]
      rw [validate_unfold options bs hB, hr]
      by_cases h0 : bs = []
      · simp [h0]
      · rw [if_neg h0]
        by_cases h1 : ∃ b ∈ bs, b.Start = []
        · rw [if_pos h1]
          simp only [Option.some.injEq, exists_eq', true_iff]
          exact Or.inr (Or.inr (Or.inl h1))
        · rw [if_neg h1]
          by_cases h2 : ∃ b ∈ bs, b.End = []
          · rw [if_pos h2]
            simp only [Option.some.injEq, exists_eq', true_iff]
            exact Or.inr (Or.inr (Or.inr h2))
          · rw [if_neg h2]
            simp [h0, h1, h2]
  · intro o
    cases o with
    | none => simp [NewParser]
    | some options =>
      cases hV : options.Validate with
      | none => simp [NewParser, hV]
      | some err => simp [NewParser, hV]
  · intro o h
    cases o with
    | none => exact absurd ⟨_, rfl⟩ h
    | some options =>
      refine ⟨options, rfl, ?_⟩
      cases hV : options.Validate with
      | none => simp [NewParser, hV]
      | some err => exact absurd ⟨err, by simp [NewParser, hV]⟩ h

/-! ## Worked examples of `Parse` -/

/-- Claim C1. On the input `/* a */ // b` followed by a newline, with the table
`//`..newline, `/*`..`*/`, `Parse` returns ONE collection, the block comment with text
` a `: the line comment, whose closing newline is the last rune of the input, is still
open when the reader reports end of input and is dropped. The claim expects two
collections. -/
theorem C1_example_returns_only_the_block_comment :
    slashParser.Parse "/* a */ // b\n".toList =
      some [{ runes := " a ".toList,
              Boundary := { Start := "/*".toList, End := "*/".toList },
              StartLocation := { Line := 1, Pos := 3 },
              EndLocation := { Line := 1, Pos := 5 } }] := by
  decide

/-- Claim C5. On the input newline, `/*a*/x` the returned collection starts with the rune
`a`, which stands on line 2, column 3; its `StartLocation` is line 1, column 4: the newline
was read while the window was being filled, where only the column counter is advanced. -/
theorem C5_newline_in_window_fill_not_counted :
    (slashParser.Parse "\n/*a*/x".toList).map (fun cs => cs.map (fun c => (c.runes, c.StartLocation)))
        = some [("a".toList, { Line := 1, Pos := 4 })] ∧
      ("\n/*a*/x".toList).get? 3 = some 'a' ∧
      locationOf "\n/*a*/x".toList 3 = { Line := 2, Pos := 3 } := by
  decide

/-- Claim C6. On the input `//a`, newline, `x` the line comment has the text `a`; the rune
before its end delimiter (the newline) is `a` on line 1, column 3, but the `EndLocation`
is line 2, column -1. On `/*a`, newline, `*/x` the rune before the end delimiter is the
newline on line 1, column 4, and the `EndLocation` is line 2, column 0. -/
theorem C6_end_location_after_newline :
    slashParser.Parse "//a\nx".toList =
        some [{ runes := "a".toList,
                Boundary := { Start := "//".toList, End := "\n".toList },
                StartLocation := { Line := 1, Pos := 3 },
                EndLocation := { Line := 2, Pos := -1 } }] ∧
      locationOf "//a\nx".toList 2 = { Line := 1, Pos := 3 } ∧
      slashParser.Parse "/*a\n*/x".toList =
        some [{ runes := "a\n".toList,
                Boundary := { Start := "/*".toList, End := "*/".toList },
                StartLocation := { Line := 1, Pos := 3 },
                EndLocation := { Line := 2, Pos := 0 } }] ∧
      locationOf "/*a\n*/x".toList 3 = { Line := 1, Pos := 4 } := by
  decide

/-! ## Single steps of the loop -/

theorem windowMatches_iff (window pat : List Char) :
    (windowMatchesString window pat).1 = true ↔ pat <:+ window := by
  unfold windowMatchesString
  simp only [decide_eq_true_eq]
  split_ifs with h
  · exact List.suffix_iff_eq_drop.symm
  · constructor
    · intro h'; rw [h']
    · intro h'
      exact h'.eq_of_length (Nat.le_antisymm h'.length_le (Nat.le_of_not_lt h))

theorem shiftWindow_length (w : List Char) (c : Char) : (shiftWindow w c).length = w.length := by
  induction w with
  | nil => rfl
  | cons x w ih =>
    cases w with
    | nil => rfl
    | cons y rest => simp only [shiftWindow, List.length_cons] at ih ⊢; rw [ih]

theorem shiftWindow_eq (w : List Char) (c : Char) (h : w ≠ []) :
    shiftWindow w c = w.tail ++ [c] := by
  induction w with
  | nil => exact absurd rfl h
  | cons x w ih =>
    cases w with
    | nil => rfl
    | cons y rest =>
      have := ih (by simp)
      simp only [shiftWindow, List.tail_cons] at this ⊢
      rw [this]; rfl

theorem getLast_append_singleton (cs : List Collection) (c : Collection) :
    getLast (cs ++ [c]) = some c := by
  simp [getLast]

theorem scanStarts_first (window : List Char) (c : Char) (line pos : Int)
    (before : List Boundary) (b : Boundary) (after : List Boundary)
    (hbefore : ∀ b' ∈ before, ¬ b'.Start <:+ window) (hb : b.Start <:+ window) :
    scanStarts window c line pos (before ++ b :: after) =
      some { runes := [c], Boundary := b, StartLocation := { Line := line, Pos := pos },
             EndLocation := { Line := 0, Pos := 0 } } := by
  induction before with
  | nil =>
    simp only [List.nil_append, scanStarts]
    rw [if_pos ((windowMatches_iff _ _).mpr hb)]
  | cons x before ih =>
    simp only [List.cons_append, scanStarts]
    rw [if_neg (fun h => hbefore x (by simp) ((windowMatches_iff _ _).mp h))]
    exact ih (fun b' hb' => hbefore b' (by simp [hb']))

/-- Claim C4. In the scanning branch (window full, not collecting), when the trailing
runes of the window equal the start of the boundary `b` and of no boundary before `b` in
the table (whatever the boundaries after `b` do), the iteration opens a collection that
carries `b`, starts with the current rune at the current line and column, and from then on
it is the end delimiter of `b` that the collecting branch tests the window against. -/
theorem C4_first_matching_boundary_opens (parser : Parser) (s : ParseState) (c : Char)
    (before : List Boundary) (b : Boundary) (after : List Boundary)
    (htable : parser.options.rangeBoundaries = before ++ b :: after)
    (hfull : s.window.length ≤ s.index) (hscan : s.collecting = false)
    (hbefore : ∀ b' ∈ before, ¬ b'.Start <:+ s.window)
    (hb : b.Start <:+ s.window) :
    ∃ s', parser.step s c = some s' ∧ s'.collecting = true ∧
      s'.collections = s.collections ++
        [{ runes := [c], Boundary := b,
           StartLocation := { Line := s.lineCounter, Pos := s.positionCounter },
           EndLocation := { Line := 0, Pos := 0 } }] ∧
      ∀ c' s'', parser.step s' c' = some s'' →
        (s''.collecting = false ↔ b.End <:+ s'.window) := by
  have hstep : parser.step s c = some (advance s c (s.collections ++
        [{ runes := [c], Boundary := b,
           StartLocation := { Line := s.lineCounter, Pos := s.positionCounter },
           EndLocation := { Line := 0, Pos := 0 } }]) true) := by
    unfold Parser.step
    rw [if_neg (Nat.not_lt.mpr hfull), hscan, htable,
      scanStarts_first _ _ _ _ _ _ _ hbefore hb]
    rfl
  refine ⟨_, hstep, rfl, rfl, ?_⟩
  intro c' s'' h
  have hlen : ¬ (s.index + 1 < (shiftWindow s.window c).length) := by
    rw [shiftWindow_length]; omega
  unfold Parser.step at h
  simp only [advance] at h ⊢
  rw [if_neg hlen, getLast_append_singleton] at h
  simp only [Bool.not_true, Bool.false_eq_true, if_false] at h
  by_cases hm : b.End <:+ shiftWindow s.window c
  · rw [if_pos ((windowMatches_iff _ _).mpr hm)] at h
    simp only [hm, iff_true]
    split at h
    · cases h
    · cases h; rfl
  · rw [if_neg (fun h' => hm ((windowMatches_iff _ _).mp h'))] at h
    cases h
    simp [hm]

/-- Witness of claim C4: with the table `ab`..`x`, `b`..`y` and the window `ab`, both
starts match and the collection opened carries the first boundary. -/
theorem C4_first_matching_boundary_opens_witness :
    ∃ s', overlapParser.step overlapState 'z' = some s' ∧ s'.collecting = true ∧
      s'.collections = overlapState.collections ++
        [{ runes := ['z'], Boundary := { Start := "ab".toList, End := "x".toList },
           StartLocation := { Line := 1, Pos := 3 },
           EndLocation := { Line := 0, Pos := 0 } }] ∧
      ∀ c' s'', overlapParser.step s' c' = some s'' →
        (s''.collecting = false ↔ "x".toList <:+ s'.window) :=
  C4_first_matching_boundary_opens overlapParser overlapState 'z' []
    { Start := "ab".toList, End := "x".toList } [{ Start := "b".toList, End := "y".toList }]
    rfl (by decide) rfl (by simp) (List.suffix_refl _)

end Lege

namespace Todos

/-! ## The TODO filter -/

theorem stringsContains_iff (s substr : List Char) :
    stringsContains s substr = true ↔ substr <:+: s := by
  induction s with
  | nil =>
    simp only [stringsContains, List.isEmpty_iff, List.infix_nil]
  | cons c s ih =>
    simp only [stringsContains, Bool.or_eq_true, ih, List.isPrefixOf_iff_prefix,
      List.infix_cons_iff]

theorem newToDo_of_contains (comment : Comment) (h : todoMarker <:+: comment.String) :
    NewToDo comment = some { Comment := comment,
                             String := stringsTrimSpace (replaceAllMarker comment.String),
                             Commit := none } := by
  unfold NewToDo
  simp only [(stringsContains_iff _ _).mpr h, Bool.not_true, Bool.false_eq_true, if_false]

theorem newToDo_of_not_contains (comment : Comment) (h : ¬ todoMarker <:+: comment.String) :
    NewToDo comment = none := by
  unfold NewToDo
  have : stringsContains comment.String todoMarker = false := by
    rw [← Bool.not_eq_true, stringsContains_iff]; exact h
  simp only [this, Bool.not_false, if_true]

theorem newToDos_foldl (comments : List Comment) (init : List ToDo) :
    comments.foldl
      (fun todos comment =>
        match NewToDo comment with
        | some todo => todos ++ [todo]
        | none => todos) init = init ++ comments.filterMap NewToDo := by
  induction comments generalizing init with
  | nil => simp
  | cons c cs ih =>
    simp only [List.foldl_cons, ih, List.filterMap_cons]
    cases NewToDo c <;> simp

theorem map_comment_filterMap (comments : List Comment) :
    (comments.filterMap NewToDo).map (fun todo => todo.Comment) =
      comments.filter (fun c => stringsContains c.String todoMarker) := by
  induction comments with
  | nil => rfl
  | cons c cs ih =>
    by_cases hc : todoMarker <:+: c.String
    · have hb := (stringsContains_iff _ _).mpr hc
      simp only [List.filterMap_cons, newToDo_of_contains c hc, List.filter_cons, hb,
        if_true, List.map_cons, ih]
    · have hb : stringsContains c.String todoMarker = false := by
        rw [← Bool.not_eq_true, stringsContains_iff]; exact hc
      simp only [List.filterMap_cons, newToDo_of_not_contains c hc, List.filter_cons, hb,
        Bool.false_eq_true, if_false, ih]

/-- Claim C8. `NewToDo` returns nil exactly when the text of the comment does not contain
`TODO`; a ToDo it returns carries the comment unchanged and no commit; `NewToDos` keeps, in
the order of the input, exactly the comments whose text contains `TODO`, one ToDo (the one
`NewToDo` makes) for each. -/
theorem C8_filter_keep_drop :
    (∀ comment : Comment, NewToDo comment = none ↔ ¬ todoMarker <:+: comment.String) ∧
    (∀ (comment : Comment) (todo : ToDo),
      NewToDo comment = some todo → todo.Comment = comment ∧ todo.Commit = none) ∧
    (∀ comments : List Comment,
      NewToDos comments = comments.filterMap NewToDo ∧
      (NewToDos comments).map (fun todo => todo.Comment) =
        comments.filter (fun c => stringsContains c.String todoMarker)) := by
  refine ⟨?_, ?_, ?_⟩
  · intro comment
    by_cases h : todoMarker <:+: comment.String
    · simp [newToDo_of_contains comment h, h]
    · simp [newToDo_of_not_contains comment h, h]
  · intro comment todo h
    by_cases hc : todoMarker <:+: comment.String
    · rw [newToDo_of_contains comment hc] at h
      cases h; exact ⟨rfl, rfl⟩
    · rw [newToDo_of_not_contains comment hc] at h
      cases h
  · intro comments
    have h1 : NewToDos comments = comments.filterMap NewToDo := by
      unfold NewToDos; rw [newToDos_foldl]; rfl
    refine ⟨h1, ?_⟩
    rw [h1]
    exact map_comment_filterMap comments

/-! ## Trimming -/

theorem dropWhile_space_append (a b : List Char) (ha : ∀ r ∈ a, r = ' ') :
    (a ++ b).dropWhile (fun r => r == ' ') = b.dropWhile (fun r => r == ' ') := by
  induction a with
  | nil => rfl
  | cons x a ih =>
    have hx : x = ' ' := ha x (by simp)
    subst hx
    simp only [List.cons_append, List.dropWhile_cons, beq_self_eq_true, if_true]
    exact ih (fun r hr => ha r (by simp [hr]))

theorem dropWhile_space_all (a : List Char) (ha : ∀ r ∈ a, r = ' ') :
    a.dropWhile (fun r => r == ' ') = [] := by
  have := dropWhile_space_append a [] ha
  simpa using this

theorem dropWhile_space_self (b : List Char) (hb : b.head? ≠ some ' ') :
    b.dropWhile (fun r => r == ' ') = b := by
  cases b with
  | nil => rfl
  | cons x b =>
    have hx : ¬ x = ' ' := fun h => hb (by simp [h])
    simp [List.dropWhile_cons, hx]

/-- What `stringsTrimSpace` makes of spaces, a body that neither starts nor ends with a
space, and spaces. -/
theorem stringsTrimSpace_padded (a body q : List Char)
    (ha : ∀ r ∈ a, r = ' ') (hq : ∀ r ∈ q, r = ' ')
    (hhead : body.head? ≠ some ' ') (hlast : body.getLast? ≠ some ' ') :
    stringsTrimSpace (a ++ body ++ q) = body := by
  unfold stringsTrimSpace List.rdropWhile
  have hq' : ∀ r ∈ q.reverse, r = ' ' := fun r hr => hq r (List.mem_reverse.mp hr)
  have ha' : ∀ r ∈ a.reverse, r = ' ' := fun r hr => ha r (List.mem_reverse.mp hr)
  rw [List.reverse_append, List.reverse_append, dropWhile_space_append _ _ hq']
  by_cases hb : body = []
  · subst hb
    simp only [List.reverse_nil, List.nil_append]
    rw [dropWhile_space_all _ ha']
    rfl
  · have hrev : (body.reverse ++ a.reverse).head? ≠ some ' ' := by
      rw [List.head?_append_of_ne_nil _ (by simpa using hb), List.head?_reverse]
      exact hlast
    rw [dropWhile_space_self _ hrev, List.reverse_append, List.reverse_reverse,
      List.reverse_reverse, dropWhile_space_append _ _ ha, dropWhile_space_self _ hhead]

theorem stringsTrimSpace_head (s : List Char) : (stringsTrimSpace s).head? ≠ some ' ' := by
  unfold stringsTrimSpace
  intro h
  have := List.head?_dropWhile_not (fun r => r == ' ') (s.rdropWhile (fun r => r == ' '))
  rw [h] at this
  simp at this

theorem stringsTrimSpace_last (s : List Char) : (stringsTrimSpace s).getLast? ≠ some ' ' := by
  unfold stringsTrimSpace
  intro h
  obtain ⟨t, ht⟩ := List.dropWhile_suffix (fun r => r == ' ')
    (l := s.rdropWhile (fun r => r == ' '))
  have hne : (s.rdropWhile (fun r => r == ' ')).dropWhile (fun r => r == ' ') ≠ [] := by
    intro h0; rw [h0] at h; simp at h
  have hne' : s.rdropWhile (fun r => r == ' ') ≠ [] := by
    intro h0; rw [h0] at hne; simp at hne
  have hl := List.rdropWhile_last_not (fun r => r == ' ') s hne'
  have hlast : (s.rdropWhile (fun r => r == ' ')).getLast? = some ' ' := by
    rw [← ht, List.getLast?_append_of_ne_nil _ hne]; exact h
  rw [List.getLast?_eq_getLast _ hne'] at hlast
  simp only [Option.some.injEq] at hlast
  rw [hlast] at hl
  simp at hl

/-- Claim C10 as the code has it. The display text of a ToDo that `NewToDo` returns
neither begins nor ends with a SPACE: `strings.Trim` is called with the cutset of the one
rune space. -/
theorem C10_display_text_space_trimmed (comment : Comment) (todo : ToDo)
    (h : NewToDo comment = some todo) :
    todo.String.head? ≠ some ' ' ∧ todo.String.getLast? ≠ some ' ' := by
  by_cases hc : todoMarker <:+: comment.String
  · rw [newToDo_of_contains comment hc] at h
    cases h
    exact ⟨stringsTrimSpace_head _, stringsTrimSpace_last _⟩
  · rw [newToDo_of_not_contains comment hc] at h
    cases h

/-- Witness of claim C10: the display text of ` TODO: fix this ` is `fix this`. -/
theorem C10_display_text_space_trimmed_witness :
    NewToDo (commentOf " TODO: fix this ".toList) =
        some { Comment := commentOf " TODO: fix this ".toList, String := "fix this".toList,
               Commit := none } ∧
      ("fix this".toList).head? ≠ some ' ' ∧ ("fix this".toList).getLast? ≠ some ' ' :=
  ⟨by decide,
   C10_display_text_space_trimmed (commentOf " TODO: fix this ".toList)
     { Comment := commentOf " TODO: fix this ".toList, String := "fix this".toList,
       Commit := none } (by decide)⟩

/-- Counterexample to claim C10 as stated. The text of the block comment
`/* TODO: x`, newline, `*/` contains `TODO`, and the display text of its ToDo is `x`
followed by the newline: it ends with a whitespace character. -/
theorem C10_display_text_ends_with_newline :
    todoMarker <:+: (commentOf " TODO: x\n".toList).String ∧
      ∃ todo, NewToDo (commentOf " TODO: x\n".toList) = some todo ∧
        todo.String = "x\n".toList ∧ todo.String.getLast? = some '\n' := by
  refine ⟨?_, _, rfl, ?_, ?_⟩
  · decide
  · decide
  · decide

/-! ## Marker stripping -/

theorem markerMatchLength_of_not_marker (s : List Char) (h : ¬ todoMarker <+: s) :
    markerMatchLength s = 0 := by
  unfold markerMatchLength
  rw [if_neg (fun h' => h (List.isPrefixOf_iff_prefix.mp h'))]

theorem replaceAux_cons_of_no_match (c : Char) (s : List Char)
    (h : markerMatchLength (c :: s) = 0) : replaceAux 0 (c :: s) = c :: replaceAux 0 s := by
  simp only [replaceAux, h]

theorem replaceAux_of_no_marker (t : List Char) (h : ¬ todoMarker <:+: t) :
    replaceAux 0 t = t := by
  induction t with
  | nil => rfl
  | cons c t ih =>
    have h1 : ¬ todoMarker <+: c :: t := fun h' => h h'.isInfix
    have h2 : ¬ todoMarker <:+: t := fun h' => h (List.infix_cons h')
    rw [replaceAux_cons_of_no_match _ _ (markerMatchLength_of_not_marker _ h1), ih h2]

theorem replaceAux_spaces (p t : List Char) (hp : ∀ r ∈ p, r = ' ') :
    replaceAux 0 (p ++ t) = p ++ replaceAux 0 t := by
  induction p with
  | nil => rfl
  | cons x p ih =>
    have hx : x = ' ' := hp x (by simp)
    subst hx
    have h1 : ¬ todoMarker <+: ' ' :: (p ++ t) := by
      intro h'
      simp [todoMarker] at h'
    rw [List.cons_append, replaceAux_cons_of_no_match _ _ (markerMatchLength_of_not_marker _ h1),
      ih (fun r hr => hp r (by simp [hr]))]
    rfl

theorem replaceAux_marker (sep r : List Char) (hsep : sep = [] ∨ sep = [':'] ∨ sep = [',']) :
    replaceAux 0 (todoMarker ++ sep ++ ' ' :: r) = replaceAux 0 (' ' :: r) := by
  rcases hsep with h | h | h <;> subst h <;>
    simp [todoMarker, replaceAux, markerMatchLength]

theorem no_marker_padded (body q : List Char) (hbody : ¬ todoMarker <:+: body)
    (hq : ∀ r ∈ q, r = ' ') : ¬ todoMarker <:+: ' ' :: (body ++ q) := by
  intro h
  rcases List.infix_cons_iff.mp h with h | h
  · simp [todoMarker] at h
  · obtain ⟨s, t, hst⟩ := h
    rcases List.append_eq_append_iff.mp hst with ⟨a, ha, _⟩ | ⟨c, hc, hqc⟩
    · exact hbody ⟨s, a, ha.symm⟩
    · cases c using List.reverseRecOn with
      | nil =>
        simp only [List.append_nil] at hc
        exact hbody ⟨s, [], by simpa using hc⟩
      | append_singleton c x =>
        have hx : x = ' ' := hq x (by rw [hqc]; simp)
        have h1 := congrArg List.getLast? hc
        simp [todoMarker, hx] at h1

/-- Claim C9. For a comment whose text is spaces, `TODO`, a separator that is empty, `:`
or `,`, one space, a body and spaces, where the body does not contain `TODO` and neither
begins nor ends with a space, `NewToDo` returns a ToDo whose `String` is the body. -/
theorem C9_marker_stripping (comment : Comment) (p sep body q : List Char)
    (htext : comment.String = p ++ todoMarker ++ sep ++ [' '] ++ body ++ q)
    (hp : ∀ r ∈ p, r = ' ') (hq : ∀ r ∈ q, r = ' ')
    (hsep : sep = [] ∨ sep = [':'] ∨ sep = [','])
    (hbody : ¬ todoMarker <:+: body)
    (hhead : body.head? ≠ some ' ') (hlast : body.getLast? ≠ some ' ') :
    ∃ todo, NewToDo comment = some todo ∧ todo.String = body := by
  have hcontains : todoMarker <:+: comment.String := by
    rw [htext]
    exact ⟨p, sep ++ [' '] ++ body ++ q, by simp⟩
  refine ⟨_, newToDo_of_contains comment hcontains, ?_⟩
  show stringsTrimSpace (replaceAllMarker comment.String) = body
  have hshape : comment.String = p ++ (todoMarker ++ sep ++ ' ' :: (body ++ q)) := by
    rw [htext]; simp
  have hreplace : replaceAllMarker comment.String = (p ++ [' ']) ++ body ++ q := by
    unfold replaceAllMarker
    rw [hshape, replaceAux_spaces _ _ hp, replaceAux_marker _ _ hsep,
      replaceAux_of_no_marker _ (no_marker_padded body q hbody hq)]
    simp
  rw [hreplace]
  refine stringsTrimSpace_padded _ body q ?_ hq hhead hlast
  intro r hr
  rcases List.mem_append.mp hr with h | h
  · exact hp r h
  · simpa using h

/-- Witness of claim C9: the text `TODO: fix this` gives the display text `fix this`. -/
theorem C9_marker_stripping_witness :
    ∃ todo, NewToDo (commentOf "TODO: fix this".toList) = some todo ∧
      todo.String = "fix this".toList :=
  C9_marker_stripping (commentOf "TODO: fix this".toList) [] [':'] "fix this".toList []
    (by decide) (by simp) (by simp) (Or.inr (Or.inl rfl)) (by decide) (by decide) (by decide)

end Todos

namespace Lege

/-! ## The window -/

theorem foldl_max_le (strs : List (List Char)) (init : Nat) :
    init ≤ strs.foldl (fun max s => if s.length > max then s.length else max) init ∧
    ∀ s ∈ strs, s.length ≤
      strs.foldl (fun max s => if s.length > max then s.length else max) init := by
  induction strs generalizing init with
  | nil => simp
  | cons x strs ih =>
    simp only [List.foldl_cons, List.mem_cons, forall_eq_or_imp]
    have h := ih (if x.length > init then x.length else init)
    refine ⟨?_, ?_, h.2⟩
    · refine Nat.le_trans ?_ h.1
      split_ifs <;> omega
    · refine Nat.le_trans ?_ h.1
      split_ifs <;> omega

theorem length_le_maxRuneCount (strs : List (List Char)) (s : List Char) (h : s ∈ strs) :
    s.length ≤ maxRuneCount strs :=
  (foldl_max_le strs 0).2 s h

theorem newWindow_length (parser : Parser) :
    parser.newWindow.length =
      max parser.options.maxStartLength parser.options.maxEndLength := by
  unfold Parser.newWindow
  simp only [List.length_replicate]
  split_ifs <;> omega

/-- No delimiter of the table is longer than the window. -/
theorem delimiter_le_windowSize (parser : Parser) (b : Boundary) (hb : b ∈ parser.table) :
    b.Start.length ≤ parser.windowSize ∧ b.End.length ≤ parser.windowSize := by
  unfold Parser.windowSize
  rw [newWindow_length]
  have h1 : b.Start.length ≤ parser.options.maxStartLength := by
    apply length_le_maxRuneCount
    rw [getAllStarts_eq]
    exact List.mem_map.mpr ⟨b, hb, rfl⟩
  have h2 : b.End.length ≤ parser.options.maxEndLength := by
    apply length_le_maxRuneCount
    rw [getAllEnds_eq]
    exact List.mem_map.mpr ⟨b, hb, rfl⟩
  omega

/-- A string no longer than the window ends the window exactly when it ends the runes
read so far. -/
theorem suffix_window_iff (done pat : List Char) (W : Nat) (hW : W ≤ done.length)
    (hpat : pat.length ≤ W) :
    pat <:+ done.drop (done.length - W) ↔ pat <:+ done := by
  constructor
  · intro h
    exact h.trans (List.drop_suffix _ _)
  · intro h
    refine List.suffix_of_suffix_length_le h (List.drop_suffix _ _) ?_
    rw [List.length_drop]; omega

theorem shiftWindow_drop (done : List Char) (W : Nat) (c : Char) (hW : W ≤ done.length) :
    shiftWindow (done.drop (done.length - W)) c =
      (done ++ [c]).drop ((done ++ [c]).length - W) := by
  by_cases h0 : W = 0
  · subst h0
    simp [shiftWindow]
  · have hne : done.drop (done.length - W) ≠ [] := by
      intro h
      have := congrArg List.length h
      rw [List.length_drop] at this
      simp at this; omega
    rw [shiftWindow_eq _ _ hne, List.tail_drop, List.length_append, List.length_singleton,
      List.drop_append_of_le_length (by omega)]
    congr 2
    omega

theorem take_set_succ (w : List Char) (i : Nat) (c : Char) (hi : i < w.length) :
    (w.set i c).take (i + 1) = w.take i ++ [c] := by
  rw [List.set_eq_take_append_cons_drop, if_pos hi]
  have hlen : (w.take i).length = i := by rw [List.length_take]; omega
  rw [List.take_append_eq_append_take, hlen, List.take_of_length_le (by omega)]
  simp

/-! ## The invariant is kept -/

theorem closed_append (done rest : List Char) (c : Collection) (h : Closed done c) :
    Closed (done ++ rest) c :=
  ⟨h.1, h.2.trans (List.prefix_append done rest).isInfix⟩

theorem scanStarts_some (window : List Char) (c : Char) (line pos : Int)
    (bs : List Boundary) (col : Collection)
    (h : scanStarts window c line pos bs = some col) :
    ∃ b ∈ bs, b.Start <:+ window ∧
      col = { runes := [c], Boundary := b, StartLocation := { Line := line, Pos := pos },
              EndLocation := { Line := 0, Pos := 0 } } := by
  induction bs with
  | nil => simp [scanStarts] at h
  | cons x bs ih =>
    simp only [scanStarts] at h
    split_ifs at h with hm
    · cases h
      exact ⟨x, by simp, (windowMatches_iff _ _).mp hm, rfl⟩
    · obtain ⟨b, hb, hrest⟩ := ih h
      exact ⟨b, by simp [hb], hrest⟩

theorem scanStarts_none (window : List Char) (c : Char) (line pos : Int)
    (bs : List Boundary) (h : ∀ b ∈ bs, ¬ b.Start <:+ window) :
    scanStarts window c line pos bs = none := by
  induction bs with
  | nil => rfl
  | cons x bs ih =>
    simp only [scanStarts]
    rw [if_neg (fun hm => h x (by simp) ((windowMatches_iff _ _).mp hm))]
    exact ih (fun b hb => h b (by simp [hb]))

theorem reached_init (parser : Parser) : Reached parser [] parser.initState where
  window_length := rfl
  index_eq := rfl
  window_fill := fun _ => by simp
  window_full := fun h => by
    have : parser.initState.window = [] := List.eq_nil_of_length_eq_zero (by simpa using h)
    simp [this]
  line_pos := by simp [Parser.initState]
  filling := fun _ => rfl
  in_table := fun c hc => by simp [Parser.initState] at hc
  scanning := fun _ c hc => by simp [Parser.initState] at hc
  collecting := fun h => by simp [Parser.initState] at h

/-- The window and the counters after an iteration that went through one of the two
branches. -/
theorem reached_advance (parser : Parser) (done : List Char) (s : ParseState) (c : Char)
    (collections : List Collection) (collecting : Bool)
    (hs : Reached parser done s) (hfull : s.window.length ≤ s.index)
    (htable : ∀ col ∈ collections, col.Boundary ∈ parser.table)
    (hscan : collecting = false → ∀ col ∈ collections, Closed (done ++ [c]) col)
    (hcoll : collecting = true →
      ∃ cs cur, collections = cs ++ [cur] ∧ (∀ col ∈ cs, Closed (done ++ [c]) col) ∧
        Open (done ++ [c]) cur) :
    Reached parser (done ++ [c]) (advance s c collections collecting) := by
  have hidx := hs.index_eq
  have hfull' : s.window.length ≤ done.length := by omega
  have hw := hs.window_full hfull'
  refine ⟨?_, ?_, ?_, ?_, ?_, ?_, htable, hscan, hcoll⟩
  · simp only [advance, shiftWindow_length]; exact hs.window_length
  · simp only [advance, List.length_append, List.length_singleton]; omega
  · intro h
    simp only [advance, shiftWindow_length, List.length_append, List.length_singleton] at h
    omega
  · intro _
    simp only [advance, shiftWindow_length]
    have hsd := shiftWindow_drop done s.window.length c hfull'
    rw [← hw] at hsd
    exact hsd
  · have := hs.line_pos
    simp only [advance]
    split_ifs <;> omega
  · intro h
    simp only [advance, shiftWindow_length, List.length_append, List.length_singleton] at h
    omega

theorem setLast_append_singleton (cs : List Collection) (cur x : Collection) :
    setLast (cs ++ [cur]) x = cs ++ [x] := by
  simp [setLast]

theorem step_fill (parser : Parser) (s : ParseState) (c : Char)
    (h : s.index < s.window.length) :
    parser.step s c =
      some { s with window := s.window.set s.index c, index := s.index + 1,
                    positionCounter := s.positionCounter + 1 } := by
  unfold Parser.step
  rw [if_pos h]

theorem step_scan (parser : Parser) (s : ParseState) (c : Char)
    (hfull : s.window.length ≤ s.index) (hscan : s.collecting = false) :
    parser.step s c =
      match scanStarts s.window c s.lineCounter s.positionCounter parser.table with
      | some collection => some (advance s c (s.collections ++ [collection]) true)
      | none => some (advance s c s.collections false) := by
  unfold Parser.step
  rw [if_neg (Nat.not_lt.mpr hfull), hscan]
  rfl

theorem step_close (parser : Parser) (s : ParseState) (c : Char)
    (cs : List Collection) (cur : Collection)
    (hfull : s.window.length ≤ s.index) (hcoll : s.collecting = true)
    (hcs : s.collections = cs ++ [cur]) (hend : cur.Boundary.End <:+ s.window)
    (hlen : cur.Boundary.End.length ≤ cur.runes.length) :
    parser.step s c =
      some (advance s c
        (cs ++ [{ runes := cur.runes.take (cur.runes.length - cur.Boundary.End.length),
                  Boundary := cur.Boundary,
                  StartLocation := cur.StartLocation,
                  EndLocation := { Line := s.lineCounter,
                                   Pos := s.positionCounter - cur.Boundary.End.length - 1 } }])
        false) := by
  unfold Parser.step
  rw [if_neg (Nat.not_lt.mpr hfull), hcoll, hcs, getLast_append_singleton]
  simp only [Bool.not_true, Bool.false_eq_true, if_false]
  rw [if_pos ((windowMatches_iff _ _).mpr hend)]
  simp only [Collection.trimRightRunes, if_pos hlen, setLast_append_singleton]

theorem step_trim_fault (parser : Parser) (s : ParseState) (c : Char)
    (cs : List Collection) (cur : Collection)
    (hfull : s.window.length ≤ s.index) (hcoll : s.collecting = true)
    (hcs : s.collections = cs ++ [cur]) (hend : cur.Boundary.End <:+ s.window)
    (hlen : ¬ cur.Boundary.End.length ≤ cur.runes.length) :
    parser.step s c = none := by
  unfold Parser.step
  rw [if_neg (Nat.not_lt.mpr hfull), hcoll, hcs, getLast_append_singleton]
  simp only [Bool.not_true, Bool.false_eq_true, if_false]
  rw [if_pos ((windowMatches_iff _ _).mpr hend)]
  simp only [Collection.trimRightRunes, if_neg hlen]

theorem step_add (parser : Parser) (s : ParseState) (c : Char)
    (cs : List Collection) (cur : Collection)
    (hfull : s.window.length ≤ s.index) (hcoll : s.collecting = true)
    (hcs : s.collections = cs ++ [cur]) (hend : ¬ cur.Boundary.End <:+ s.window) :
    parser.step s c = some (advance s c (cs ++ [cur.addRune c]) true) := by
  unfold Parser.step
  rw [if_neg (Nat.not_lt.mpr hfull), hcoll, hcs, getLast_append_singleton]
  simp only [Bool.not_true, Bool.false_eq_true, if_false]
  rw [if_neg (fun h => hend ((windowMatches_iff _ _).mp h))]
  simp only [setLast_append_singleton]

/-- A match of the window is a match of the runes read so far. -/
theorem suffix_done_of_window (parser : Parser) (done : List Char) (s : ParseState)
    (hs : Reached parser done s) (hfull : s.window.length ≤ s.index) (pat : List Char)
    (h : pat <:+ s.window) : pat <:+ done := by
  have hfull' : s.window.length ≤ done.length := by rw [← hs.index_eq]; exact hfull
  have hw := hs.window_full hfull'
  rw [hw] at h
  exact h.trans (List.drop_suffix _ _)

theorem window_of_suffix_done (parser : Parser) (done : List Char) (s : ParseState)
    (hs : Reached parser done s) (hfull : s.window.length ≤ s.index) (pat : List Char)
    (hpat : pat.length ≤ parser.windowSize) (h : pat <:+ done) : pat <:+ s.window := by
  have hfull' : s.window.length ≤ done.length := by rw [← hs.index_eq]; exact hfull
  have hw := hs.window_full hfull'
  rw [hw]
  exact (suffix_window_iff done pat s.window.length hfull'
    (by rw [hs.window_length]; exact hpat)).mpr h

/-- One iteration keeps the invariant. -/
theorem reached_step (parser : Parser) (done : List Char) (s s' : ParseState) (c : Char)
    (hs : Reached parser done s) (hstep : parser.step s c = some s') :
    Reached parser (done ++ [c]) s' := by
  by_cases hfill : s.index < s.window.length
  · rw [step_fill parser s c hfill] at hstep
    cases hstep
    have hidx := hs.index_eq
    have hlt : done.length < s.window.length := by omega
    have hcoll := hs.filling hlt
    have htake := hs.window_fill (Nat.le_of_lt hlt)
    have hnew : (s.window.set s.index c).take (done.length + 1) = done ++ [c] := by
      rw [hidx, take_set_succ _ _ _ hlt, htake]
    refine ⟨?_, ?_, ?_, ?_, hs.line_pos, fun _ => hcoll, hs.in_table, ?_, ?_⟩
    · simp only [List.length_set]; exact hs.window_length
    · simp only [List.length_append, List.length_singleton]; omega
    · intro _
      simpa only [List.length_append, List.length_singleton] using hnew
    · intro h
      simp only [List.length_set, List.length_append, List.length_singleton] at h ⊢
      have hW : s.window.length = done.length + 1 := by omega
      rw [hW, Nat.sub_self, List.drop_zero, ← hnew]
      exact (List.take_of_length_le (by simp only [List.length_set]; omega)).symm
    · intro _ col hcol
      exact closed_append done [c] col (hs.scanning hcoll col hcol)
    · intro h
      exact absurd (show s.collecting = true from h) (by simp [hcoll])
  · have hfull : s.window.length ≤ s.index := Nat.le_of_not_lt hfill
    cases hc : s.collecting with
    | false =>
      rw [step_scan parser s c hfull hc] at hstep
      have hclosed := hs.scanning hc
      cases hsc : scanStarts s.window c s.lineCounter s.positionCounter parser.table with
      | none =>
        rw [hsc] at hstep
        cases hstep
        exact reached_advance parser done s c _ _ hs hfull hs.in_table
          (fun _ col hcol => closed_append done [c] col (hclosed col hcol))
          (fun h => by cases h)
      | some col =>
        rw [hsc] at hstep
        cases hstep
        obtain ⟨b, hb, hmatch, rfl⟩ := scanStarts_some _ _ _ _ _ _ hsc
        have hdone := suffix_done_of_window parser done s hs hfull _ hmatch
        refine reached_advance parser done s c _ _ hs hfull ?_ (fun h => by cases h) ?_
        · intro x hx
          rcases List.mem_append.mp hx with h | h
          · exact hs.in_table x h
          · rw [List.mem_singleton.mp h]; exact hb
        · intro _
          refine ⟨s.collections, _, rfl,
            fun x hx => closed_append done [c] x (hclosed x hx), rfl, by simp, ?_⟩
          obtain ⟨t, ht⟩ := hdone
          exact ⟨t, by simp [← ht]⟩
    | true =>
      obtain ⟨cs, cur, hcs, hcsClosed, hopen⟩ := hs.collecting hc
      obtain ⟨hloc, hne, hsuf⟩ := hopen
      have hcurTable : cur.Boundary ∈ parser.table := hs.in_table cur (by simp [hcs])
      have hcsTable : ∀ x ∈ cs, x.Boundary ∈ parser.table :=
        fun x hx => hs.in_table x (by simp [hcs, hx])
      by_cases hend : cur.Boundary.End <:+ s.window
      · by_cases hlen : cur.Boundary.End.length ≤ cur.runes.length
        · rw [step_close parser s c cs cur hfull hc hcs hend hlen] at hstep
          cases hstep
          have hdone := suffix_done_of_window parser done s hs hfull _ hend
          have hrunes : cur.runes <:+ done := (List.suffix_append _ _).trans hsuf
          have hER : cur.Boundary.End <:+ cur.runes :=
            List.suffix_of_suffix_length_le hdone hrunes hlen
          have hsplit : cur.runes.take (cur.runes.length - cur.Boundary.End.length) ++
              cur.Boundary.End = cur.runes := by
            conv_rhs => rw [← List.take_append_drop
              (cur.runes.length - cur.Boundary.End.length) cur.runes]
            rw [← List.suffix_iff_eq_drop.mp hER]
          refine reached_advance parser done s c _ _ hs hfull ?_ ?_ (fun h => by cases h)
          · intro x hx
            rcases List.mem_append.mp hx with h | h
            · exact hcsTable x h
            · rw [List.mem_singleton.mp h]; exact hcurTable
          · intro _ x hx
            rcases List.mem_append.mp hx with h | h
            · exact closed_append done [c] x (hcsClosed x h)
            · rw [List.mem_singleton.mp h]
              refine ⟨hs.line_pos, ?_⟩
              simp only [List.append_assoc, hsplit]
              exact hsuf.isInfix.trans (List.prefix_append done [c]).isInfix
        · rw [step_trim_fault parser s c cs cur hfull hc hcs hend hlen] at hstep
          cases hstep
      · rw [step_add parser s c cs cur hfull hc hcs hend] at hstep
        cases hstep
        refine reached_advance parser done s c _ _ hs hfull ?_ (fun h => by cases h) ?_
        · intro x hx
          rcases List.mem_append.mp hx with h | h
          · exact hcsTable x h
          · rw [List.mem_singleton.mp h]; exact hcurTable
        · intro _
          refine ⟨cs, _, rfl, fun x hx => closed_append done [c] x (hcsClosed x hx),
            hloc, by simp [Collection.addRune], ?_⟩
          obtain ⟨t, ht⟩ := hsuf
          exact ⟨t, by simp [Collection.addRune, ← ht]⟩

/-! ## Runs -/

theorem run_append (parser : Parser) (s : ParseState) (a b : List Char) :
    parser.run s (a ++ b) = (parser.run s a).bind (fun s' => parser.run s' b) := by
  induction a generalizing s with
  | nil => rfl
  | cons c a ih =>
    simp only [List.cons_append, Parser.run]
    cases parser.step s c with
    | none => rfl
    | some s1 => exact ih s1

theorem reached_run (parser : Parser) (done rest : List Char) (s s' : ParseState)
    (hs : Reached parser done s) (hrun : parser.run s rest = some s') :
    Reached parser (done ++ rest) s' := by
  induction rest generalizing done s with
  | nil =>
    simp only [Parser.run, Option.some.injEq] at hrun
    subst hrun
    simpa using hs
  | cons c rest ih =>
    simp only [Parser.run] at hrun
    cases hstep : parser.step s c with
    | none => rw [hstep] at hrun; cases hrun
    | some s1 =>
      rw [hstep] at hrun
      have := ih (done ++ [c]) s1 (reached_step parser done s s1 c hs hstep) hrun
      simpa using this

/-- Claim C3. When the loop of `Parse` reaches the end of the input in collecting mode,
the last collection of the list is the open one (its `EndLocation` was never written, and
the input ends with its start delimiter followed by its runes); `Parse` removes exactly
that one and returns the others without error; every returned collection was closed by
an end match: its `EndLocation` was written, and its start delimiter, its text and its end
delimiter stand one after the other in the input. -/
theorem C3_unterminated_span_dropped (parser : Parser) (input : List Char)
    (hopen : (parser.run parser.initState input).map (fun s => s.collecting) = some true) :
    ∃ s returned dropped,
      parser.run parser.initState input = some s ∧
      s.collections = returned ++ [dropped] ∧
      parser.Parse input = some returned ∧
      dropped.EndLocation = { Line := 0, Pos := 0 } ∧
      dropped.Boundary.Start ++ dropped.runes <:+ input ∧
      ∀ c ∈ returned, 1 ≤ c.EndLocation.Line ∧
        c.Boundary.Start ++ c.runes ++ c.Boundary.End <:+: input := by
  cases hrun : parser.run parser.initState input with
  | none => rw [hrun] at hopen; cases hopen
  | some s =>
    rw [hrun] at hopen
    have hcoll : s.collecting = true := by simpa using hopen
    have hreach := reached_run parser [] input _ s (reached_init parser) hrun
    rw [List.nil_append] at hreach
    obtain ⟨cs, cur, hcs, hclosed, hloc, _, hsuf⟩ := hreach.collecting hcoll
    refine ⟨s, cs, cur, rfl, hcs, ?_, hloc, hsuf, fun c hc => hclosed c hc⟩
    unfold Parser.Parse
    rw [hrun]
    simp [finish, hcoll, hcs]

/-- Witness of claim C3: on `/* a */ /* b` the second block comment is still open at the
end of the input and only the first is returned. -/
theorem C3_unterminated_span_dropped_witness :
    (slashParser.run slashParser.initState "/* a */ /* b".toList).map
        (fun s => s.collecting) = some true ∧
    ∃ s returned dropped,
      slashParser.run slashParser.initState "/* a */ /* b".toList = some s ∧
      s.collections = returned ++ [dropped] ∧
      slashParser.Parse "/* a */ /* b".toList = some returned ∧
      dropped.EndLocation = { Line := 0, Pos := 0 } ∧
      dropped.Boundary.Start ++ dropped.runes <:+ "/* a */ /* b".toList ∧
      ∀ c ∈ returned, 1 ≤ c.EndLocation.Line ∧
        c.Boundary.Start ++ c.runes ++ c.Boundary.End <:+: "/* a */ /* b".toList :=
  ⟨by decide, C3_unterminated_span_dropped slashParser "/* a */ /* b".toList (by decide)⟩

/-! ## Phases of a run -/

/-- A string that ends a prefix of the input occurs in the input, at the index where it
starts. -/
theorem occursAt_of_suffix (input d pat : List Char) (hd : d <+: input) (hp : pat <:+ d) :
    occursAt pat input (d.length - pat.length) ∧ pat.length ≤ d.length ∧
      d.length - pat.length ≤ input.length := by
  obtain ⟨v, hv⟩ := hd
  obtain ⟨u, hu⟩ := hp
  subst hu
  subst hv
  refine ⟨?_, by simp, by simp⟩
  unfold occursAt
  have : (u ++ pat).length - pat.length = u.length := by simp
  rw [this, List.append_assoc, List.drop_left]
  exact List.prefix_append _ _

/-- Scanning (or window filling) over a stretch in which no start delimiter ends: nothing
is opened. -/
theorem scan_phase (parser : Parser) (seg done : List Char) (s : ParseState)
    (hs : Reached parser done s) (hscan : s.collecting = false)
    (hno : ∀ d, d <+: seg → d ≠ seg → ∀ b ∈ parser.table, ¬ b.Start <:+ done ++ d) :
    ∃ s', parser.run s seg = some s' ∧ Reached parser (done ++ seg) s' ∧
      s'.collecting = false ∧ s'.collections = s.collections := by
  induction seg generalizing done s with
  | nil => exact ⟨s, rfl, by simpa using hs, hscan, rfl⟩
  | cons c rest ih =>
    have hno' : ∀ d, d <+: rest → d ≠ rest →
        ∀ b ∈ parser.table, ¬ b.Start <:+ (done ++ [c]) ++ d := by
      intro d hd hne b hb
      have := hno (c :: d) (List.prefix_cons_inj c |>.mpr hd) (by simpa using hne) b hb
      simpa using this
    have hstep : ∃ s1, parser.step s c = some s1 ∧ s1.collecting = false ∧
        s1.collections = s.collections := by
      by_cases hfill : s.index < s.window.length
      · exact ⟨_, step_fill parser s c hfill, hscan, rfl⟩
      · have hfull : s.window.length ≤ s.index := Nat.le_of_not_lt hfill
        have hnone : scanStarts s.window c s.lineCounter s.positionCounter parser.table
            = none := by
          apply scanStarts_none
          intro b hb hm
          have := hno [] (List.nil_prefix) (by simp) b hb
          rw [List.append_nil] at this
          exact this (suffix_done_of_window parser done s hs hfull _ hm)
        refine ⟨advance s c s.collections false, ?_, rfl, rfl⟩
        rw [step_scan parser s c hfull hscan, hnone]
    obtain ⟨s1, hs1, hc1, hcol1⟩ := hstep
    obtain ⟨s', hrun, hreach, hc', hcol'⟩ :=
      ih (done ++ [c]) s1 (reached_step parser done s s1 c hs hs1) hc1 hno'
    refine ⟨s', ?_, by simpa using hreach, hc', by rw [hcol', hcol1]⟩
    simp only [Parser.run, hs1, Option.some_bind, hrun]

/-- Collecting over a stretch in which the end delimiter of the open collection does not
end: every rune is appended to it. -/
theorem collect_phase (parser : Parser) (seg done : List Char) (s : ParseState)
    (cs : List Collection) (cur : Collection)
    (hs : Reached parser done s) (hcoll : s.collecting = true)
    (hcs : s.collections = cs ++ [cur])
    (hno : ∀ d, d <+: seg → d ≠ seg → ¬ cur.Boundary.End <:+ done ++ d) :
    ∃ s' cur', parser.run s seg = some s' ∧ Reached parser (done ++ seg) s' ∧
      s'.collecting = true ∧ s'.collections = cs ++ [cur'] ∧
      cur'.runes = cur.runes ++ seg ∧ cur'.Boundary = cur.Boundary := by
  induction seg generalizing done s cur with
  | nil => exact ⟨s, cur, rfl, by simpa using hs, hcoll, hcs, by simp, rfl⟩
  | cons c rest ih =>
    have hfull : s.window.length ≤ s.index := by
      rw [hs.index_eq]
      by_contra h
      have := hs.filling (Nat.lt_of_not_le h)
      rw [hcoll] at this; cases this
    have hend : ¬ cur.Boundary.End <:+ s.window := by
      intro hm
      have := hno [] (List.nil_prefix) (by simp)
      rw [List.append_nil] at this
      exact this (suffix_done_of_window parser done s hs hfull _ hm)
    have hs1 := step_add parser s c cs cur hfull hcoll hcs hend
    have hno' : ∀ d, d <+: rest → d ≠ rest →
        ¬ (cur.addRune c).Boundary.End <:+ (done ++ [c]) ++ d := by
      intro d hd hne
      have := hno (c :: d) (List.prefix_cons_inj c |>.mpr hd) (by simpa using hne)
      simpa [Collection.addRune] using this
    obtain ⟨s', cur', hrun, hreach, hc', hcol', hrunes, hbd⟩ :=
      ih (done ++ [c]) _ (cur.addRune c) (reached_step parser done s _ c hs hs1) rfl rfl hno'
    refine ⟨s', cur', ?_, by simpa using hreach, hc', hcol', ?_, ?_⟩
    · simp only [Parser.run, hs1, Option.some_bind, hrun]
    · rw [hrunes]; simp [Collection.addRune]
    · rw [hbd]; rfl

end Lege

namespace Lege

/-! ## Round trip -/

/-- When the starts the window ends with are exactly the boundaries whose start is `st`,
the scanning branch opens the boundary that `getCorrespondingBoundary st` finds. -/
theorem scanStarts_eq_find (window : List Char) (c : Char) (line pos : Int)
    (bs : List Boundary) (st : List Char)
    (h : ∀ b ∈ bs, (b.Start <:+ window ↔ st = b.Start)) :
    scanStarts window c line pos bs =
      (bs.find? (fun b => decide (st = b.Start))).map
        (fun b => { runes := [c], Boundary := b,
                    StartLocation := { Line := line, Pos := pos },
                    EndLocation := { Line := 0, Pos := 0 } }) := by
  induction bs with
  | nil => rfl
  | cons x bs ih =>
    have hx := h x (by simp)
    have ih' := ih (fun b hb => h b (by simp [hb]))
    simp only [scanStarts, List.find?_cons]
    by_cases hm : x.Start <:+ window
    · rw [if_pos ((windowMatches_iff _ _).mpr hm)]
      simp [hx.mp hm]
    · rw [if_neg (fun h' => hm ((windowMatches_iff _ _).mp h'))]
      have : ¬ st = x.Start := fun h' => hm (hx.mpr h')
      simp only [this, decide_False]
      exact ih'

/-- Claim C2 as the code has it. Under the hypotheses of the claim (`RoundTripInput`: valid
table, `(startStr, endStr)` in it, input `pre ++ startStr ++ inner ++ endStr ++ suf` in
which no boundary start occurs other than `startStr` at its written place and `endStr`
does not occur before its written place), and when moreover `(startStr, endStr)` is the
first boundary of the table with that start, the window is full once `startStr` has been
read, and `suf` is not empty, `Parse` returns exactly one collection and its text is
`inner`. -/
theorem C2_round_trip (parser : Parser) (startStr endStr pre inner suf : List Char)
    (hclaim : RoundTripInput parser startStr endStr pre inner suf)
    (hfirst : parser.options.getCorrespondingBoundary startStr =
      some { Start := startStr, End := endStr })
    (hfull : parser.windowSize ≤ pre.length + startStr.length)
    (hsuf : suf ≠ []) :
    ∃ c, parser.Parse (pre ++ startStr ++ inner ++ endStr ++ suf) = some [c] ∧
      c.String = inner := by
  obtain ⟨hvalid, hb, hstart, hend⟩ := hclaim
  -- the delimiters are not empty and fit the window
  obtain ⟨bs, hbs, _, hne⟩ := (validate_eq_none_iff parser.options).mp hvalid
  have htab : parser.table = bs := by
    simp [Parser.table, ParseOptions.rangeBoundaries, hbs]
  have hendne : endStr ≠ [] := (hne _ (htab ▸ hb)).2
  have hW := delimiter_le_windowSize parser _ hb
  simp only at hW
  -- name the pieces of the input
  obtain ⟨x, rest, rfl⟩ := List.exists_cons_of_ne_nil hsuf
  obtain ⟨y, body', hbody⟩ : ∃ y body', inner ++ endStr = y :: body' :=
    List.exists_cons_of_ne_nil (by simp [hendne])
  have hbodylen : inner.length + endStr.length = body'.length + 1 := by
    have := congrArg List.length hbody
    simpa using this
  have hinput : pre ++ startStr ++ inner ++ endStr ++ x :: rest =
      (pre ++ startStr) ++ (y :: (body' ++ x :: rest)) := by
    have : pre ++ startStr ++ inner ++ endStr = (pre ++ startStr) ++ (inner ++ endStr) := by
      simp
    rw [this, hbody]; simp
  rw [hinput] at hstart hend ⊢
  -- occurrences, read off prefixes of the input
  have hP : ∀ d, d <+: (pre ++ startStr) ++ (y :: (body' ++ x :: rest)) →
      ∀ b ∈ parser.table, b.Start <:+ d →
        d.length = (pre ++ startStr).length ∧ b.Start = startStr := by
    intro d hd b hbt hsuffix
    obtain ⟨hocc, hle, hk⟩ := occursAt_of_suffix _ d b.Start hd hsuffix
    obtain ⟨hk', hst⟩ := hstart b hbt _ hk hocc
    refine ⟨?_, hst⟩
    rw [hst] at hle hk'
    simp only [List.length_append]; omega
  have hQ : ∀ d, d <+: (pre ++ startStr) ++ (y :: (body' ++ x :: rest)) →
      endStr <:+ d → (pre ++ startStr).length + body'.length + 1 ≤ d.length := by
    intro d hd hsuffix
    obtain ⟨hocc, hle, hk⟩ := occursAt_of_suffix _ d endStr hd hsuffix
    have := hend _ hk hocc
    simp only [List.length_append] at this ⊢
    omega
  -- phase 1: up to the end of the start delimiter nothing is opened
  obtain ⟨s1, hrun1, hreach1, hcoll1, hcols1⟩ :=
    scan_phase parser (pre ++ startStr) [] parser.initState (reached_init parser) rfl
      (by
        intro d hd hdne b hbt hsuffix
        rw [List.nil_append] at hsuffix
        have := (hP d (hd.trans (List.prefix_append _ _)) b hbt hsuffix).1
        exact hdne (hd.eq_of_length this))
  rw [List.nil_append] at hreach1
  have hcols1' : s1.collections = [] := hcols1
  have hfull1 : s1.window.length ≤ s1.index := by
    rw [hreach1.window_length, hreach1.index_eq, List.length_append]; exact hfull
  -- phase 2: the rune after the start delimiter opens the collection
  have hwin1 : startStr <:+ s1.window :=
    window_of_suffix_done parser _ s1 hreach1 hfull1 startStr hW.1 (List.suffix_append _ _)
  have hscan : scanStarts s1.window y s1.lineCounter s1.positionCounter parser.table =
      some { runes := [y], Boundary := { Start := startStr, End := endStr },
             StartLocation := { Line := s1.lineCounter, Pos := s1.positionCounter },
             EndLocation := { Line := 0, Pos := 0 } } := by
    rw [scanStarts_eq_find s1.window y _ _ parser.table startStr]
    · have : parser.table.find? (fun b => decide (startStr = b.Start)) =
          some { Start := startStr, End := endStr } := hfirst
      rw [this]; rfl
    · intro b hbt
      constructor
      · intro hm
        exact ((hP _ (List.prefix_append _ _) b hbt
          (suffix_done_of_window parser _ s1 hreach1 hfull1 _ hm)).2).symm
      · intro hst
        rw [← hst]; exact hwin1
  have hstep2 : parser.step s1 y = some (advance s1 y ([] ++
      [{ runes := [y], Boundary := { Start := startStr, End := endStr },
         StartLocation := { Line := s1.lineCounter, Pos := s1.positionCounter },
         EndLocation := { Line := 0, Pos := 0 } }]) true) := by
    rw [step_scan parser s1 y hfull1 hcoll1, hscan, hcols1']
  have hreach2 := reached_step parser _ s1 _ y hreach1 hstep2
  -- phase 3: the runes up to the end of the end delimiter are collected
  obtain ⟨s3, cur3, hrun3, hreach3, hcoll3, hcols3, hrunes3, hbd3⟩ :=
    collect_phase parser body' ((pre ++ startStr) ++ [y]) _ [] _ hreach2 rfl rfl
      (by
        intro d hd hdne hsuffix
        have hpre : (pre ++ startStr) ++ [y] ++ d <+:
            (pre ++ startStr) ++ (y :: (body' ++ x :: rest)) := by
          obtain ⟨t, ht⟩ := hd
          exact ⟨t ++ x :: rest, by simp [← ht]⟩
        have hlen := hQ _ hpre hsuffix
        have hdlen : d.length < body'.length := by
          rcases Nat.lt_or_ge d.length body'.length with h | h
          · exact h
          · exact absurd (hd.eq_of_length (Nat.le_antisymm hd.length_le h)) hdne
        simp only [List.length_append, List.length_singleton] at hlen
        omega)
  have hcurEnd : cur3.Boundary.End = endStr := by rw [hbd3]
  have hcurRunes : cur3.runes = inner ++ endStr := by rw [hrunes3, hbody]; rfl
  have hfull3 : s3.window.length ≤ s3.index := by
    rw [hreach3.window_length, hreach3.index_eq]
    simp only [List.length_append, List.length_singleton]; omega
  -- phase 4: the rune after the end delimiter closes the collection
  have hwin3 : cur3.Boundary.End <:+ s3.window := by
    rw [hcurEnd]
    refine window_of_suffix_done parser _ s3 hreach3 hfull3 endStr hW.2 ?_
    refine ⟨pre ++ startStr ++ inner, ?_⟩
    have : (pre ++ startStr) ++ [y] ++ body' = (pre ++ startStr) ++ (y :: body') := by simp
    rw [this, ← hbody]; simp
  have hlen3 : cur3.Boundary.End.length ≤ cur3.runes.length := by
    rw [hcurEnd, hcurRunes, List.length_append]; omega
  have hstep4 := step_close parser s3 x [] cur3 hfull3 hcoll3 hcols3 hwin3 hlen3
  have hreach4 := reached_step parser _ s3 _ x hreach3 hstep4
  -- phase 5: nothing is opened in the rest of the input
  obtain ⟨s5, hrun5, _, hcoll5, hcols5⟩ :=
    scan_phase parser rest ((pre ++ startStr) ++ [y] ++ body' ++ [x]) _ hreach4 rfl
      (by
        intro d hd _ b hbt hsuffix
        have hpre : (pre ++ startStr) ++ [y] ++ body' ++ [x] ++ d <+:
            (pre ++ startStr) ++ (y :: (body' ++ x :: rest)) := by
          obtain ⟨t, ht⟩ := hd
          exact ⟨t, by simp [← ht]⟩
        have := (hP _ hpre b hbt hsuffix).1
        simp only [List.length_append, List.length_singleton] at this
        omega)
  -- the whole run
  have hrun : parser.run parser.initState
      ((pre ++ startStr) ++ (y :: (body' ++ x :: rest))) = some s5 := by
    rw [run_append, hrun1, Option.some_bind, Parser.run, hstep2, Option.some_bind,
      run_append, hrun3, Option.some_bind, Parser.run, hstep4, Option.some_bind, hrun5]
  refine ⟨{ runes := cur3.runes.take (cur3.runes.length - cur3.Boundary.End.length),
             Boundary := cur3.Boundary,
             StartLocation := cur3.StartLocation,
             EndLocation := { Line := s3.lineCounter,
                              Pos := s3.positionCounter - cur3.Boundary.End.length - 1 } },
    ?_, ?_⟩
  · unfold Parser.Parse
    rw [hrun, Option.some_bind]
    unfold finish
    rw [hcoll5, hcols5]
    rfl
  · show List.take (cur3.runes.length - cur3.Boundary.End.length) cur3.runes = inner
    rw [hcurEnd, hcurRunes]
    simp

/-- Witness of claim C2: the block comment of `/* a */` followed by a newline. -/
theorem C2_round_trip_witness :
    RoundTripInput slashParser "/*".toList "*/".toList [] " a ".toList "\n".toList ∧
    ∃ c, slashParser.Parse ([] ++ "/*".toList ++ " a ".toList ++ "*/".toList ++ "\n".toList)
        = some [c] ∧ c.String = " a ".toList :=
  ⟨by decide,
   C2_round_trip slashParser "/*".toList "*/".toList [] " a ".toList "\n".toList
     (by decide) (by decide) (by decide) (by decide)⟩

/-- Counterexample to claim C2 as stated: three inputs that satisfy every hypothesis of the
claim and on which `Parse` returns no collection. (1) `/*a*/` with nothing after the end
delimiter: the end match is tested only when a further rune is read. (2) `axbcy` with the
table `a`..`bc`: the start delimiter is complete before the window (two runes) is full,
and nothing is tested while the window fills. (3) `axcy` with the table `a`..`b`, `a`..`c`
and the boundary `a`..`c`: the collection is opened for the first boundary whose start
matches, `a`..`b`, and never closed. -/
theorem C2_round_trip_as_stated_fails :
    (RoundTripInput slashParser "/*".toList "*/".toList [] "a".toList [] ∧
      slashParser.Parse ([] ++ "/*".toList ++ "a".toList ++ "*/".toList ++ []) = some []) ∧
    (RoundTripInput longEndParser "a".toList "bc".toList [] "x".toList "y".toList ∧
      longEndParser.Parse ([] ++ "a".toList ++ "x".toList ++ "bc".toList ++ "y".toList)
        = some []) ∧
    (RoundTripInput sharedStartParser "a".toList "c".toList [] "x".toList "y".toList ∧
      sharedStartParser.Parse ([] ++ "a".toList ++ "x".toList ++ "c".toList ++ "y".toList)
        = some []) := by
  refine ⟨⟨?_, ?_⟩, ⟨?_, ?_⟩, ⟨?_, ?_⟩⟩ <;> decide

end Lege

namespace Lege

/-! ## What `Parse` returns -/

/-- The collections `Parse` returns are closed with respect to the input. -/
theorem parse_closed (parser : Parser) (input : List Char) (cs : List Collection)
    (hparse : parser.Parse input = some cs) :
    ∀ c ∈ cs, c.Boundary ∈ parser.table ∧ Closed input c := by
  unfold Parser.Parse at hparse
  cases hrun : parser.run parser.initState input with
  | none => rw [hrun] at hparse; cases hparse
  | some s =>
    rw [hrun, Option.some_bind] at hparse
    have hreach := reached_run parser [] input _ s (reached_init parser) hrun
    rw [List.nil_append] at hreach
    unfold finish at hparse
    cases hc : s.collecting with
    | false =>
      rw [hc] at hparse
      simp only [Bool.false_eq_true, if_false, Option.some.injEq] at hparse
      subst hparse
      exact fun c hcm => ⟨hreach.in_table c hcm, hreach.scanning hc c hcm⟩
    | true =>
      rw [hc] at hparse
      obtain ⟨cs', cur, hcs, hclosed, _⟩ := hreach.collecting hc
      simp only [if_true, hcs, List.length_append, List.length_singleton,
        Nat.add_one_ne_zero, if_false, List.dropLast_concat, Option.some.injEq] at hparse
      subst hparse
      exact fun c hcm => ⟨hreach.in_table c (by simp [hcs, hcm]), hclosed c hcm⟩

/-- Claim C18. Whenever `Parse` returns without fault, every returned collection carries a
boundary of the table, and the runes of that boundary's start, then the text of the
collection, then the runes of that boundary's end stand one after the other in the
input. -/
theorem C18_emitted_spans_sound (parser : Parser) (input : List Char) (cs : List Collection)
    (hparse : parser.Parse input = some cs) :
    ∀ c ∈ cs, c.Boundary ∈ parser.table ∧
      ∃ before after,
        input = before ++ c.Boundary.Start ++ c.String ++ c.Boundary.End ++ after := by
  intro c hc
  obtain ⟨htab, _, before, after, h⟩ := parse_closed parser input cs hparse c hc
  exact ⟨htab, before, after, by rw [← h]; simp [Collection.String]⟩

/-- Witness of claim C18: the two comments of `/* a */ // b`, newline, `x`. -/
theorem C18_emitted_spans_sound_witness :
    slashParser.Parse "/* a */ // b\nx".toList =
      some [{ runes := " a ".toList,
              Boundary := { Start := "/*".toList, End := "*/".toList },
              StartLocation := { Line := 1, Pos := 3 },
              EndLocation := { Line := 1, Pos := 5 } },
            { runes := " b".toList,
              Boundary := { Start := "//".toList, End := "\n".toList },
              StartLocation := { Line := 1, Pos := 11 },
              EndLocation := { Line := 2, Pos := -1 } }] ∧
    ∀ c ∈ [({ runes := " a ".toList,
              Boundary := { Start := "/*".toList, End := "*/".toList },
              StartLocation := { Line := 1, Pos := 3 },
              EndLocation := { Line := 1, Pos := 5 } } : Collection),
            { runes := " b".toList,
              Boundary := { Start := "//".toList, End := "\n".toList },
              StartLocation := { Line := 1, Pos := 11 },
              EndLocation := { Line := 2, Pos := -1 } }],
      c.Boundary ∈ slashParser.table ∧
      ∃ before after,
        "/* a */ // b\nx".toList =
          before ++ c.Boundary.Start ++ c.String ++ c.Boundary.End ++ after :=
  ⟨by decide, C18_emitted_spans_sound slashParser "/* a */ // b\nx".toList _ (by decide)⟩

/-! ## A span ends at the first end delimiter -/

theorem endFree_init (parser : Parser) : EndFree parser.initState where
  scanning := fun _ c hc => by simp [Parser.initState] at hc
  collecting := fun h => by simp [Parser.initState] at h

/-- One iteration keeps the invariant about end delimiters, when no end delimiter of the
table is empty. -/
theorem endFree_step (parser : Parser) (done : List Char) (s s' : ParseState) (c : Char)
    (hne : ∀ b ∈ parser.table, b.End ≠ [])
    (hs : Reached parser done s) (he : EndFree s) (hstep : parser.step s c = some s') :
    EndFree s' := by
  by_cases hfill : s.index < s.window.length
  · rw [step_fill parser s c hfill] at hstep
    cases hstep
    have hcoll : s.collecting = false := hs.filling (by rw [← hs.index_eq]; exact hfill)
    exact ⟨fun _ => he.scanning hcoll, fun h => absurd (show s.collecting = true from h)
      (by simp [hcoll])⟩
  · have hfull : s.window.length ≤ s.index := Nat.le_of_not_lt hfill
    cases hc : s.collecting with
    | false =>
      rw [step_scan parser s c hfull hc] at hstep
      cases hsc : scanStarts s.window c s.lineCounter s.positionCounter parser.table with
      | none =>
        rw [hsc] at hstep
        cases hstep
        exact ⟨fun _ => he.scanning hc, fun h => by cases h⟩
      | some col =>
        rw [hsc] at hstep
        cases hstep
        obtain ⟨b, _, _, rfl⟩ := scanStarts_some _ _ _ _ _ _ hsc
        refine ⟨fun h => (by cases h), fun _ => ⟨s.collections, _, rfl, he.scanning hc, ?_⟩⟩
        intro p hp hp0 hp1
        cases p with
        | nil => exact absurd rfl hp0
        | cons x p =>
          have hlen := hp.length_le
          simp only [List.length_cons, List.length_nil] at hlen
          have hpnil : p = [] := List.eq_nil_of_length_eq_zero (by omega)
          subst hpnil
          exact absurd (hp.eq_of_length rfl) hp1
    | true =>
      obtain ⟨cs, cur, hcs, hcsFree, hcurFree⟩ := he.collecting hc
      obtain ⟨cs', cur', hcs', _, _, _, hsuf⟩ := hs.collecting hc
      obtain ⟨h1, h2⟩ := List.append_inj' (hcs.symm.trans hcs') rfl
      have h2' : cur = cur' := by simpa using h2
      subst h1
      subst h2'
      have hcurTable : cur.Boundary ∈ parser.table := hs.in_table cur (by simp [hcs])
      have hrunes : cur.runes <:+ done := (List.suffix_append _ _).trans hsuf
      by_cases hend : cur.Boundary.End <:+ s.window
      · by_cases hlen : cur.Boundary.End.length ≤ cur.runes.length
        · rw [step_close parser s c cs cur hfull hc hcs hend hlen] at hstep
          cases hstep
          have hdone := suffix_done_of_window parser done s hs hfull _ hend
          have hER : cur.Boundary.End <:+ cur.runes :=
            List.suffix_of_suffix_length_le hdone hrunes hlen
          have hsplit : cur.runes.take (cur.runes.length - cur.Boundary.End.length) ++
              cur.Boundary.End = cur.runes := by
            conv_rhs => rw [← List.take_append_drop
              (cur.runes.length - cur.Boundary.End.length) cur.runes]
            rw [← List.suffix_iff_eq_drop.mp hER]
          have hEne : cur.Boundary.End ≠ [] := hne _ hcurTable
          refine ⟨fun _ x hx => ?_, fun h => by cases h⟩
          rcases List.mem_append.mp hx with h | h
          · exact hcsFree x h
          · rw [List.mem_singleton.mp h]
            rintro ⟨a, b, hab⟩
            simp only at hab
            have hpre : a ++ cur.Boundary.End <+: cur.runes :=
              ⟨b ++ cur.Boundary.End, by rw [← hsplit, ← hab]; simp⟩
            have hlt : (a ++ cur.Boundary.End).length < cur.runes.length := by
              have h1 := congrArg List.length hab
              have h2 := congrArg List.length hsplit
              have h3 : 0 < cur.Boundary.End.length := List.length_pos.mpr hEne
              simp only [List.length_append] at h1 h2 ⊢
              omega
            exact hcurFree _ hpre (by simp [hEne]) (fun h' => by rw [h'] at hlt; omega)
              (List.suffix_append _ _)
        · rw [step_trim_fault parser s c cs cur hfull hc hcs hend hlen] at hstep
          cases hstep
      · rw [step_add parser s c cs cur hfull hc hcs hend] at hstep
        cases hstep
        refine ⟨fun h => (by cases h), fun _ => ⟨cs, _, rfl, hcsFree, ?_⟩⟩
        intro p hp hp0 hp1 hEp
        simp only [Collection.addRune] at hp hp1 hEp
        rcases List.prefix_concat_iff.mp hp with h | h
        · exact hp1 h
        · by_cases hpr : p = cur.runes
          · subst hpr
            exact hend (window_of_suffix_done parser done s hs hfull _
              (delimiter_le_windowSize parser _ hcurTable).2 (hEp.trans hrunes))
          · exact hcurFree p h hp0 hpr hEp

theorem endFree_run (parser : Parser) (done rest : List Char) (s s' : ParseState)
    (hne : ∀ b ∈ parser.table, b.End ≠ [])
    (hs : Reached parser done s) (he : EndFree s) (hrun : parser.run s rest = some s') :
    EndFree s' := by
  induction rest generalizing done s with
  | nil =>
    simp only [Parser.run, Option.some.injEq] at hrun
    subst hrun
    exact he
  | cons c rest ih =>
    simp only [Parser.run] at hrun
    cases hstep : parser.step s c with
    | none => rw [hstep] at hrun; cases hrun
    | some s1 =>
      rw [hstep] at hrun
      exact ih (done ++ [c]) s1 (reached_step parser done s s1 c hs hstep)
        (endFree_step parser done s s1 c hne hs he hstep) hrun

/-- Claim C19. For a valid table, whenever `Parse` returns without fault, the text of a
returned collection does not contain the end delimiter of its boundary. -/
theorem C19_text_has_no_end_delimiter (parser : Parser) (input : List Char)
    (cs : List Collection) (hvalid : parser.options.Validate = none)
    (hparse : parser.Parse input = some cs) :
    ∀ c ∈ cs, ¬ c.Boundary.End <:+: c.String := by
  obtain ⟨bs, hbs, _, hbne⟩ := (validate_eq_none_iff parser.options).mp hvalid
  have hne : ∀ b ∈ parser.table, b.End ≠ [] := by
    intro b hb
    have : parser.table = bs := by simp [Parser.table, ParseOptions.rangeBoundaries, hbs]
    exact (hbne b (this ▸ hb)).2
  unfold Parser.Parse at hparse
  cases hrun : parser.run parser.initState input with
  | none => rw [hrun] at hparse; cases hparse
  | some s =>
    rw [hrun, Option.some_bind] at hparse
    have hfree := endFree_run parser [] input _ s hne (reached_init parser)
      (endFree_init parser) hrun
    unfold finish at hparse
    cases hc : s.collecting with
    | false =>
      rw [hc] at hparse
      simp only [Bool.false_eq_true, if_false, Option.some.injEq] at hparse
      subst hparse
      exact hfree.scanning hc
    | true =>
      rw [hc] at hparse
      obtain ⟨cs', cur, hcs, hclosed, _⟩ := hfree.collecting hc
      simp only [if_true, hcs, List.length_append, List.length_singleton,
        Nat.add_one_ne_zero, if_false, List.dropLast_concat, Option.some.injEq] at hparse
      subst hparse
      exact hclosed

/-- Witness of claim C19: in `/* a */ b */x` the collection ends at the first `*/`. -/
theorem C19_text_has_no_end_delimiter_witness :
    slashParser.Parse "/* a */ b */x".toList =
      some [{ runes := " a ".toList,
              Boundary := { Start := "/*".toList, End := "*/".toList },
              StartLocation := { Line := 1, Pos := 3 },
              EndLocation := { Line := 1, Pos := 5 } }] ∧
    ∀ c ∈ [({ runes := " a ".toList,
              Boundary := { Start := "/*".toList, End := "*/".toList },
              StartLocation := { Line := 1, Pos := 3 },
              EndLocation := { Line := 1, Pos := 5 } } : Collection)],
      ¬ c.Boundary.End <:+: c.String :=
  ⟨by decide,
   C19_text_has_no_end_delimiter slashParser "/* a */ b */x".toList _ (by decide)
     (by decide)⟩

/-! ## Trimming -/

/-- In collecting mode the list of collections is not empty: `getLast` and the drop at the
end of the input never meet an empty list. -/
theorem collections_ne_nil_of_collecting (parser : Parser) (input : List Char)
    (s : ParseState) (hrun : parser.run parser.initState input = some s)
    (hc : s.collecting = true) : s.collections ≠ [] := by
  have hreach := reached_run parser [] input _ s (reached_init parser) hrun
  obtain ⟨cs, cur, hcs, _⟩ := hreach.collecting hc
  rw [hcs]; simp

/-- Claim C20. With the table `/*`..`*/` and the input `/*/` followed by a space: after
`/*/` the loop is collecting, the open collection holds ONE rune (the second `/`), and the
window `*/` equals the end delimiter, which has TWO runes; the end match at the next rune
reuses the `*` of the start delimiter and asks `trimRightRunes` for more runes than were
collected, which is a fault of `Parse`. -/
theorem C20_end_match_reuses_start_runes :
    (∃ s cur, blockParser.run blockParser.initState "/*/".toList = some s ∧
      s.collecting = true ∧ getLast s.collections = some cur ∧
      cur.runes = "/".toList ∧ cur.Boundary.End = "*/".toList ∧
      (windowMatchesString s.window cur.Boundary.End).1 = true ∧
      cur.runes.length < cur.Boundary.End.length) ∧
    blockParser.Parse "/*/ ".toList = none := by
  refine ⟨⟨{ window := "*/".toList, index := 3, lineCounter := 1, positionCounter := 4,
             collections := [{ runes := "/".toList,
                               Boundary := { Start := "/*".toList, End := "*/".toList },
                               StartLocation := { Line := 1, Pos := 3 },
                               EndLocation := { Line := 0, Pos := 0 } }],
             collecting := true },
           { runes := "/".toList,
             Boundary := { Start := "/*".toList, End := "*/".toList },
             StartLocation := { Line := 1, Pos := 3 },
             EndLocation := { Line := 0, Pos := 0 } },
           ?_, rfl, rfl, rfl, rfl, ?_, ?_⟩, ?_⟩ <;> decide

end Lege

namespace Todos

/-! ## Ordering -/

/-- Claim C11. For items `first` at index `i` and `second` at index `j` of a list: when
`first` has no commit and `second` has one, `Less(i, j)` is true and `Less(j, i)` is false;
when both have a commit, `Less(i, j)` says whether the author time of the first is strictly
before that of the second. -/
theorem C11_less_unknown_before_known (t : List ToDo) (i j : Nat) (first second : ToDo)
    (hi : t[i]? = some first) (hj : t[j]? = some second) :
    (first.Commit = none → second.Commit ≠ none →
      ToDos.Less t i j = some true ∧ ToDos.Less t j i = some false) ∧
    (∀ firstCommit secondCommit,
      first.Commit = some firstCommit → second.Commit = some secondCommit →
        ToDos.Less t i j = some (decide (firstCommit.AuthorWhen < secondCommit.AuthorWhen))) := by
  refine ⟨?_, ?_⟩
  · intro h1 h2
    obtain ⟨sc, hsc⟩ := Option.ne_none_iff_exists'.mp h2
    simp [ToDos.Less, hi, hj, h1, hsc]
  · intro fc sc h1 h2
    simp [ToDos.Less, hi, hj, h1, h2]

/-- Witness of claim C11: the list with origin times unknown, 20, 10 is sorted to unknown,
10, 20, and between the unknown item (index 0) and the item of time 20 (index 1) `Less`
is as the claim says. -/
theorem C11_less_unknown_before_known_witness :
    insertionSort [todoWith none, todoWith (some (commitAt "b".toList 20)),
                   todoWith (some (commitAt "a".toList 10))] =
      [todoWith none, todoWith (some (commitAt "a".toList 10)),
       todoWith (some (commitAt "b".toList 20))] ∧
    ((todoWith none).Commit = none → (todoWith (some (commitAt "b".toList 20))).Commit ≠ none →
      ToDos.Less [todoWith none, todoWith (some (commitAt "b".toList 20)),
                  todoWith (some (commitAt "a".toList 10))] 0 1 = some true ∧
      ToDos.Less [todoWith none, todoWith (some (commitAt "b".toList 20)),
                  todoWith (some (commitAt "a".toList 10))] 1 0 = some false) :=
  ⟨by decide,
   (C11_less_unknown_before_known
     [todoWith none, todoWith (some (commitAt "b".toList 20)),
      todoWith (some (commitAt "a".toList 10))] 0 1 _ _ rfl rfl).1⟩

/-- Claim C12. For the list of ONE item without a commit, `Less(0, 0)` is true: `Less`
answers true as soon as the first item has no commit, whatever the second is, so two items
of unknown origin each compare as less than the other. The claim says both comparisons
are false. -/
theorem C12_less_true_between_unknown_items :
    (todoWith none).Commit = none ∧
    ToDos.Less [todoWith none] 0 0 = some true ∧
    ToDos.Less [todoWith none, todoWith none] 0 1 = some true ∧
    ToDos.Less [todoWith none, todoWith none] 1 0 = some true := by
  decide

end Todos

namespace Todos

/-! ## The introduction test -/

theorem chunksAdded_iff (text : List Char) (chunks : List Chunk) :
    chunksAdded text chunks = true ↔
      ∃ chunk ∈ chunks, chunk.ChunkType = Operation.Add ∧ text <:+: chunk.Content := by
  induction chunks with
  | nil => simp [chunksAdded]
  | cons chunk chunks ih =>
    simp only [chunksAdded, List.mem_cons, exists_eq_or_imp]
    by_cases hadd : chunk.ChunkType = Operation.Add
    · by_cases hc : text <:+: chunk.Content
      · simp [hadd, (stringsContains_iff _ _).mpr hc, hc]
      · have hb : stringsContains chunk.Content text = false := by
          rw [← Bool.not_eq_true, stringsContains_iff]; exact hc
        simp [hadd, hb, hc, ih]
    · simp [hadd, ih]

theorem patchesAdded_iff (t : ToDo) (patches : List FilePatch) :
    patchesAdded t patches = true ↔
      ∃ filePatch ∈ patches, filePatch.IsBinary = false ∧
        ∃ toFile, filePatch.To = some toFile ∧ toFile.Path = t.Comment.FilePath ∧
          ∃ chunk ∈ filePatch.Chunks,
            chunk.ChunkType = Operation.Add ∧ t.Comment.String <:+: chunk.Content := by
  induction patches with
  | nil => simp [patchesAdded]
  | cons fp patches ih =>
    simp only [patchesAdded, List.mem_cons, exists_eq_or_imp]
    by_cases hbin : fp.IsBinary = true
    · simp [hbin, ih]
    · have hbin' : fp.IsBinary = false := by simpa using hbin
      cases hto : fp.To with
      | none => simp [hbin', ih]
      | some toFile =>
        by_cases hpath : toFile.Path = t.Comment.FilePath
        · by_cases hch : chunksAdded t.Comment.String fp.Chunks = true
          · have := (chunksAdded_iff _ _).mp hch
            simp [hbin', hpath, hch, this]
          · have hn := fun h => hch ((chunksAdded_iff _ _).mpr h)
            simp only [hbin', Bool.false_eq_true, if_false, hpath, if_true, hch, ih,
              Option.some.injEq, exists_eq_left', true_and]
            constructor
            · exact fun h => Or.inr h
            · rintro (h | h)
              · exact absurd h hn
              · exact h
        · simp [hbin', hpath, ih]

/-- Claim C14. The test `addedInPatch(S, prev)` of an item returns true without error, at
any call, exactly when `S.IsAncestor(prev)` says yes and the patch from `S` to `prev` is
computed
and has a file patch that is not binary, whose `to` file is there with the path of the
item, and that has a chunk of type `Add` whose content contains the raw text of the
item's comment. -/
theorem C14_introduction_test (t : ToDo) (repo : Repository) (call : Call)
    (S prev : ObjectCommit) :
    t.addedInPatch repo call S prev = .ok true ↔
      repo.IsAncestor call S prev = .ok true ∧
      ∃ patches, repo.Patch call S prev = .ok patches ∧
        ∃ filePatch ∈ patches, filePatch.IsBinary = false ∧
          ∃ toFile, filePatch.To = some toFile ∧ toFile.Path = t.Comment.FilePath ∧
            ∃ chunk ∈ filePatch.Chunks,
              chunk.ChunkType = Operation.Add ∧ t.Comment.String <:+: chunk.Content := by
  unfold ToDo.addedInPatch
  cases hanc : repo.IsAncestor call S prev with
  | error err => simp
  | ok b =>
    cases b with
    | false => simp
    | true =>
      cases hpatch : repo.Patch call S prev with
      | error err => simp
      | ok patches =>
        simp only [Except.ok.injEq, true_and, exists_eq_left']
        exact patchesAdded_iff t patches

/-! ## Cancellation -/

theorem forEach_done (repo : Repository) (ctxDone : Nat → Bool) (hasCb : Bool)
    (commits : List ObjectCommit) (k : Nat) (s : BlameState)
    (hdone : ∀ j, ctxDone j = true) :
    forEach repo ctxDone hasCb k s commits =
      { err := none, todos := s.todos, events := s.events } := by
  induction commits generalizing k with
  | nil => rfl
  | cons commit rest ih =>
    unfold forEach blameCallback
    by_cases h0 : s.remainingTodos.length = 0
    · rw [if_pos h0]
    · rw [if_neg h0]
      by_cases hh : s.prevCommit.Hash = commit.Hash
      · rw [if_pos hh]
        exact ih (k + 1)
      · rw [if_neg hh, if_pos (hdone k)]

/-- Claim C16. When the cancellation signal is set at the call (and, once set, stays set)
and the history iterator opens, `FindBlame` returns no error, leaves every todo as it was,
and makes no call: no ancestor test, no diff, no progress callback. -/
theorem C16_cancelled_at_call (t : List ToDo) (ctxDone : Nat → Bool) (repo : Repository)
    (fromCommit : ObjectCommit) (hasCb : Bool) (commits : List ObjectCommit)
    (hlog : repo.Log fromCommit.Hash = .ok commits)
    (hset : ctxDone 0 = true) (hstays : ∀ k, ctxDone k = true → ctxDone (k + 1) = true) :
    ToDos.FindBlame t ctxDone repo fromCommit hasCb =
      { err := none, todos := t, events := [] } := by
  have hdone : ∀ j, ctxDone j = true := by
    intro j
    induction j with
    | zero => exact hset
    | succ j ih => exact hstays j ih
  unfold ToDos.FindBlame
  rw [hlog]
  exact forEach_done repo ctxDone hasCb commits 0 (blameInit t fromCommit) hdone

/-- Witness of claim C16: the example history with the signal set from the start. -/
theorem C16_cancelled_at_call_witness :
    ToDos.FindBlame [todoWith none] alwaysDone exampleRepo commitC true =
      { err := none, todos := [todoWith none], events := [] } :=
  C16_cancelled_at_call [todoWith none] alwaysDone exampleRepo commitC true
    [commitC, commitB, commitA] rfl rfl (fun _ _ => rfl)

end Todos

namespace Todos

/-! ## One step of the history walk -/

theorem patchesAdded_congr (t t' : ToDo) (h : t.Comment = t'.Comment)
    (patches : List FilePatch) : patchesAdded t patches = patchesAdded t' patches := by
  induction patches with
  | nil => rfl
  | cons fp patches ih => simp only [patchesAdded, h, ih]

/-- The test does not read the commit of the todo. -/
theorem addedInPatch_withOrigin (todo : ToDo) (origin : Option ObjectCommit)
    (repo : Repository) (call : Call) (a b : ObjectCommit) :
    (withOrigin todo origin).addedInPatch repo call a b = todo.addedInPatch repo call a b := by
  have hc : (withOrigin todo origin).Comment = todo.Comment := by
    cases origin <;> rfl
  have hp : patchesAdded (withOrigin todo origin) = patchesAdded todo :=
    funext (patchesAdded_congr _ _ hc)
  unfold ToDo.addedInPatch
  rw [hp]

theorem addedInPatch_attributed (repo : Repository) (k : Nat) (commit prev : ObjectCommit)
    (examined : List Nat) (i : Nat) (todo : ToDo) (call : Call) (a b : ObjectCommit) :
    (attributed repo k commit prev examined i todo).addedInPatch repo call a b =
      todo.addedInPatch repo call a b := by
  unfold attributed
  split_ifs
  · exact addedInPatch_withOrigin _ _ _ _ _ _
  · rfl

theorem attributed_cons_ne (repo : Repository) (k : Nat) (commit prev : ObjectCommit)
    (e : Nat) (examined : List Nat) (i : Nat) (todo : ToDo) (h : i ≠ e) :
    attributed repo k commit prev (e :: examined) i todo =
      attributed repo k commit prev examined i todo := by
  unfold attributed
  simp [h]

theorem attributed_of_not_added (repo : Repository) (k : Nat) (commit prev : ObjectCommit)
    (examined : List Nat) (i : Nat) (todo : ToDo)
    (h : todo.addedInPatch repo { step := k, pointer := i } commit prev ≠ .ok true) :
    attributed repo k commit prev examined i todo = todo := by
  unfold attributed
  rw [if_neg (fun h' => h h'.2)]

theorem attributed_of_not_mem (repo : Repository) (k : Nat) (commit prev : ObjectCommit)
    (examined : List Nat) (i : Nat) (todo : ToDo) (h : i ∉ examined) :
    attributed repo k commit prev examined i todo = todo := by
  unfold attributed
  rw [if_neg (fun h' => h h'.1)]

theorem staysRemaining_set (repo : Repository) (k : Nat) (commit prev : ObjectCommit)
    (todos : List ToDo) (e : Nat) (todo : ToDo) (origin : Option ObjectCommit)
    (he : todos[e]? = some todo) (i : Nat) :
    staysRemaining repo k commit prev (todos.set e (withOrigin todo origin)) i =
      staysRemaining repo k commit prev todos i := by
  unfold staysRemaining
  rw [List.getElem?_set]
  by_cases hei : e = i
  · subst hei
    have hlt : e < todos.length := by
      rcases Nat.lt_or_ge e todos.length with h | h
      · exact h
      · rw [List.getElem?_eq_none h] at he; cases he
    simp only [if_true, hlt, he, addedInPatch_withOrigin]
  · simp only [hei, if_false]

/-- The loop over the remaining todos, as far as the tests succeed: the pointers whose
test says no are appended to the new remaining list in the order they are met, the todos
whose test says yes get the previous commit, and nothing else is touched. -/
theorem blameLoop_examined (repo : Repository) (k : Nat) (commit prev : ObjectCommit)
    (examined rest : List Nat) (todos : List ToDo) (newRem : List Nat) (events : List Event)
    (hok : ∀ i ∈ examined, ∀ td, todos[i]? = some td →
      ∃ b, td.addedInPatch repo { step := k, pointer := i } commit prev = .ok b) :
    ∃ todos' events',
      blameLoop repo k commit prev (examined ++ rest) todos newRem events =
        blameLoop repo k commit prev rest todos'
          (newRem ++ examined.filter (staysRemaining repo k commit prev todos)) events' ∧
      ∀ i, todos'[i]? = (todos[i]?).map (attributed repo k commit prev examined i) := by
  induction examined generalizing todos newRem events with
  | nil =>
    refine ⟨todos, events, by simp, ?_⟩
    intro i
    cases todos[i]? with
    | none => rfl
    | some td => simp [attributed]
  | cons e ex ih =>
    have hok' : ∀ i ∈ ex, ∀ td, todos[i]? = some td →
        ∃ b, td.addedInPatch repo { step := k, pointer := i } commit prev = .ok b :=
      fun i hi => hok i (by simp [hi])
    rw [List.cons_append, blameLoop]
    cases he : todos[e]? with
    | none =>
      obtain ⟨todos', events', heq, hpt⟩ := ih todos newRem events hok'
      refine ⟨todos', events', ?_, ?_⟩
      · simp only
        rw [heq]
        have : staysRemaining repo k commit prev todos e = false := by
          simp [staysRemaining, he]
        simp [List.filter_cons, this]
      · intro i
        rw [hpt i]
        by_cases hie : i = e
        · subst hie; rw [he]; rfl
        · cases todos[i]? with
          | none => rfl
          | some td => simp [attributed_cons_ne _ _ _ _ _ _ _ _ hie]
    | some td =>
      obtain ⟨b, hb⟩ := hok e (by simp) td he
      have hlt : e < todos.length := by
        rcases Nat.lt_or_ge e todos.length with h | h
        · exact h
        · rw [List.getElem?_eq_none h] at he; cases he
      cases b with
      | true =>
        have hok1 : ∀ i ∈ ex, ∀ td',
            (todos.set e (withOrigin td (some prev)))[i]? = some td' →
              ∃ b, td'.addedInPatch repo { step := k, pointer := i } commit prev = .ok b := by
          intro i hi td' htd'
          rw [List.getElem?_set] at htd'
          by_cases hei : e = i
          · simp only [hei, if_true] at htd'
            subst hei
            rw [if_pos hlt] at htd'
            cases htd'
            exact ⟨true, by rw [addedInPatch_withOrigin]; exact hb⟩
          · simp only [hei, if_false] at htd'
            exact hok' i hi td' htd'
        obtain ⟨todos', events', heq, hpt⟩ :=
          ih (todos.set e (withOrigin td (some prev))) newRem
            (events ++ addedInPatchEvents repo { step := k, pointer := e } commit prev) hok1
        refine ⟨todos', events', ?_, ?_⟩
        · simp only [hb]
          have hset : todos.set e { td with Commit := some prev } =
              todos.set e (withOrigin td (some prev)) := rfl
          rw [hset, heq]
          have hst : staysRemaining repo k commit prev todos e = false := by
            simp [staysRemaining, he, hb]
          have hfil : ex.filter (staysRemaining repo k commit prev
              (todos.set e (withOrigin td (some prev)))) =
              ex.filter (staysRemaining repo k commit prev todos) :=
            List.filter_congr
              (fun i _ => staysRemaining_set repo k commit prev todos e td _ he i)
          simp [List.filter_cons, hst, hfil]
        · intro i
          rw [hpt i, List.getElem?_set]
          by_cases hei : e = i
          · subst hei
            simp only [if_true, hlt, he, Option.map_some', Option.some.injEq]
            have h1 : attributed repo k commit prev (e :: ex) e td =
                withOrigin td (some prev) := by
              unfold attributed; simp [hb]
            rw [h1]
            unfold attributed
            split_ifs <;> rfl
          · simp only [hei, if_false]
            cases todos[i]? with
            | none => rfl
            | some td' =>
              simp [attributed_cons_ne _ _ _ _ _ _ _ _ (fun h => hei h.symm)]
      | false =>
        obtain ⟨todos', events', heq, hpt⟩ :=
          ih todos (newRem ++ [e])
            (events ++ addedInPatchEvents repo { step := k, pointer := e } commit prev) hok'
        refine ⟨todos', events', ?_, ?_⟩
        · simp only [hb]
          rw [heq]
          have hst : staysRemaining repo k commit prev todos e = true := by
            simp [staysRemaining, he, hb]
          simp [List.filter_cons, hst]
        · intro i
          rw [hpt i]
          by_cases hie : i = e
          · subst hie
            rw [he]
            simp only [Option.map_some', Option.some.injEq]
            rw [attributed_of_not_added _ _ _ _ _ _ _ (by rw [hb]; simp),
              attributed_of_not_added _ _ _ _ _ _ _ (by rw [hb]; simp)]
          · cases todos[i]? with
            | none => rfl
            | some td' => simp [attributed_cons_ne _ _ _ _ _ _ _ _ hie]

/-- The loop when every test succeeds. -/
theorem blameLoop_ok (repo : Repository) (k : Nat) (commit prev : ObjectCommit)
    (rem : List Nat) (todos : List ToDo) (newRem : List Nat) (events : List Event)
    (hok : ∀ i ∈ rem, ∀ td, todos[i]? = some td →
      ∃ b, td.addedInPatch repo { step := k, pointer := i } commit prev = .ok b) :
    ∃ todos' events',
      blameLoop repo k commit prev rem todos newRem events =
        { result := .ok (newRem ++ rem.filter (staysRemaining repo k commit prev todos)),
          todos := todos', events := events' } ∧
      ∀ i, todos'[i]? = (todos[i]?).map (attributed repo k commit prev rem i) := by
  obtain ⟨todos', events', heq, hpt⟩ :=
    blameLoop_examined repo k commit prev rem [] todos newRem events hok
  rw [List.append_nil] at heq
  exact ⟨todos', events', by rw [heq]; rfl, hpt⟩

/-- The loop when the test of the pointer `idx` fails after the tests of the pointers
`examined` succeeded. -/
theorem blameLoop_err (repo : Repository) (k : Nat) (commit prev : ObjectCommit)
    (examined : List Nat) (idx : Nat) (later : List Nat) (todos : List ToDo)
    (newRem : List Nat) (events : List Event) (todo : ToDo) (err : HistoryError)
    (hok : ∀ i ∈ examined, ∀ td, todos[i]? = some td →
      ∃ b, td.addedInPatch repo { step := k, pointer := i } commit prev = .ok b)
    (htodo : todos[idx]? = some todo)
    (herr : todo.addedInPatch repo { step := k, pointer := idx } commit prev = .error err) :
    ∃ todos' events',
      blameLoop repo k commit prev (examined ++ idx :: later) todos newRem events =
        { result := .error err, todos := todos', events := events' } ∧
      ∀ i, todos'[i]? = (todos[i]?).map (attributed repo k commit prev examined i) := by
  obtain ⟨todos', events', heq, hpt⟩ :=
    blameLoop_examined repo k commit prev examined (idx :: later) todos newRem events hok
  have hidx : todos'[idx]? = some (attributed repo k commit prev examined idx todo) := by
    rw [hpt idx, htodo]; rfl
  refine ⟨todos', events' ++ addedInPatchEvents repo { step := k, pointer := idx } commit prev,
    ?_, hpt⟩
  rw [heq, blameLoop, hidx]
  simp only [addedInPatch_attributed, herr]

/-- When not every element of a list has a property, some element is the first without
it. -/
theorem exists_first_failure (P : Nat → Prop) (rem : List Nat) (h : ¬ ∀ i ∈ rem, P i) :
    ∃ examined idx later, rem = examined ++ idx :: later ∧ (∀ i ∈ examined, P i) ∧ ¬ P idx := by
  induction rem with
  | nil => exact absurd (fun i hi => by simp at hi) h
  | cons x rem ih =>
    by_cases hx : P x
    · have h' : ¬ ∀ i ∈ rem, P i := by
        intro hall
        apply h
        intro i hi
        rcases List.mem_cons.mp hi with rfl | hi'
        · exact hx
        · exact hall i hi'
      obtain ⟨examined, idx, later, hrem, hex, hidx⟩ := ih h'
      refine ⟨x :: examined, idx, later, by rw [hrem]; rfl, ?_, hidx⟩
      intro i hi
      rcases List.mem_cons.mp hi with rfl | hi'
      · exact hx
      · exact hex i hi'
    · exact ⟨[], x, rem, rfl, fun i hi => by simp at hi, hx⟩

/-- A step that is processed and in which every test succeeds: the callback returns nil,
the todos whose test said yes have the previous commit, the others stay in the remaining
list in their order, and the commit becomes the previous commit. -/
theorem blameCallback_ok (repo : Repository) (ctxDone : Nat → Bool) (hasCb : Bool) (k : Nat)
    (s : BlameState) (commit : ObjectCommit)
    (hrem : s.remainingTodos.length ≠ 0) (hhash : s.prevCommit.Hash ≠ commit.Hash)
    (hctx : ctxDone k = false)
    (hok : ∀ i ∈ s.remainingTodos, ∀ td, s.todos[i]? = some td →
      ∃ b, td.addedInPatch repo { step := k, pointer := i } commit s.prevCommit = .ok b) :
    ∃ s', blameCallback repo ctxDone hasCb k s commit = .next s' ∧
      s'.remainingTodos =
        s.remainingTodos.filter (staysRemaining repo k commit s.prevCommit s.todos) ∧
      s'.prevCommit = commit ∧
      ∀ i, s'.todos[i]? =
        (s.todos[i]?).map (attributed repo k commit s.prevCommit s.remainingTodos i) := by
  obtain ⟨todos', events', heq, hpt⟩ :=
    blameLoop_ok repo k commit s.prevCommit s.remainingTodos s.todos [] s.events hok
  refine ⟨{ todos := todos',
            remainingTodos :=
              s.remainingTodos.filter (staysRemaining repo k commit s.prevCommit s.todos),
            prevCommit := commit,
            events := events' ++
              (if hasCb then
                [Event.progress commit
                  (s.remainingTodos.filter
                    (staysRemaining repo k commit s.prevCommit s.todos)).length]
               else []) }, ?_, rfl, rfl, hpt⟩
  unfold blameCallback
  rw [if_neg hrem, if_neg hhash, hctx]
  simp only [Bool.false_eq_true, if_false, heq, List.nil_append]

/-- A step that is processed and in which the test of the pointer `idx` fails: the
callback returns the error, and the todos examined before with the answer yes have the
previous commit. -/
theorem blameCallback_err (repo : Repository) (ctxDone : Nat → Bool) (hasCb : Bool) (k : Nat)
    (s : BlameState) (commit : ObjectCommit)
    (examined : List Nat) (idx : Nat) (later : List Nat) (todo : ToDo) (err : HistoryError)
    (hrem : s.remainingTodos = examined ++ idx :: later)
    (hhash : s.prevCommit.Hash ≠ commit.Hash) (hctx : ctxDone k = false)
    (hok : ∀ i ∈ examined, ∀ td, s.todos[i]? = some td →
      ∃ b, td.addedInPatch repo { step := k, pointer := i } commit s.prevCommit = .ok b)
    (htodo : s.todos[idx]? = some todo)
    (herr : todo.addedInPatch repo { step := k, pointer := idx } commit s.prevCommit =
      .error err) :
    ∃ s', blameCallback repo ctxDone hasCb k s commit = .fail err s' ∧
      ∀ i, s'.todos[i]? =
        (s.todos[i]?).map (attributed repo k commit s.prevCommit examined i) := by
  obtain ⟨todos', events', heq, hpt⟩ :=
    blameLoop_err repo k commit s.prevCommit examined idx later s.todos [] s.events todo err
      hok htodo herr
  refine ⟨{ s with todos := todos', events := events' }, ?_, hpt⟩
  unfold blameCallback
  rw [if_neg (by rw [hrem]; simp), if_neg hhash, hctx, hrem]
  simp only [Bool.false_eq_true, if_false, heq]

end Todos

namespace Todos

/-! ## The history walk -/

/-- The four ways the callback can go. -/
theorem blameCallback_cases (repo : Repository) (ctxDone : Nat → Bool) (hasCb : Bool)
    (k : Nat) (s : BlameState) (commit : ObjectCommit) :
    (blameCallback repo ctxDone hasCb k s commit = .stop s ∧
      (s.remainingTodos = [] ∨ (s.prevCommit.Hash ≠ commit.Hash ∧ ctxDone k = true))) ∨
    (blameCallback repo ctxDone hasCb k s commit = .next s ∧
      s.prevCommit.Hash = commit.Hash) ∨
    (s.prevCommit.Hash ≠ commit.Hash ∧ ctxDone k = false ∧
      (∀ i ∈ s.remainingTodos, ∀ td, s.todos[i]? = some td →
        ∃ b, td.addedInPatch repo { step := k, pointer := i } commit s.prevCommit = .ok b) ∧
      ∃ s', blameCallback repo ctxDone hasCb k s commit = .next s' ∧
        s'.remainingTodos =
          s.remainingTodos.filter (staysRemaining repo k commit s.prevCommit s.todos) ∧
        s'.prevCommit = commit ∧
        ∀ i, s'.todos[i]? =
          (s.todos[i]?).map (attributed repo k commit s.prevCommit s.remainingTodos i)) ∨
    (s.prevCommit.Hash ≠ commit.Hash ∧ ctxDone k = false ∧
      ∃ err s' examined idx later todo,
        blameCallback repo ctxDone hasCb k s commit = .fail err s' ∧
        s.remainingTodos = examined ++ idx :: later ∧
        (∀ i ∈ examined, ∀ td, s.todos[i]? = some td →
          ∃ b, td.addedInPatch repo { step := k, pointer := i } commit s.prevCommit = .ok b) ∧
        s.todos[idx]? = some todo ∧
        todo.addedInPatch repo { step := k, pointer := idx } commit s.prevCommit =
          .error err ∧
        ∀ i, s'.todos[i]? =
          (s.todos[i]?).map (attributed repo k commit s.prevCommit examined i)) := by
  by_cases hrem : s.remainingTodos.length = 0
  · refine Or.inl ⟨?_, Or.inl (List.eq_nil_of_length_eq_zero hrem)⟩
    unfold blameCallback
    rw [if_pos hrem]
  by_cases hhash : s.prevCommit.Hash = commit.Hash
  · refine Or.inr (Or.inl ⟨?_, hhash⟩)
    unfold blameCallback
    rw [if_neg hrem, if_pos hhash]
  cases hctx : ctxDone k with
  | true =>
    refine Or.inl ⟨?_, Or.inr ⟨hhash, rfl⟩⟩
    unfold blameCallback
    rw [if_neg hrem, if_neg hhash, hctx, if_pos rfl]
  | false =>
    by_cases hall : ∀ i ∈ s.remainingTodos, ∀ td, s.todos[i]? = some td →
        ∃ b, td.addedInPatch repo { step := k, pointer := i } commit s.prevCommit = .ok b
    · exact Or.inr (Or.inr (Or.inl ⟨hhash, rfl, hall,
        blameCallback_ok repo ctxDone hasCb k s commit hrem hhash hctx hall⟩))
    · obtain ⟨examined, idx, later, hsplit, hex, hidx⟩ :=
        exists_first_failure
          (fun i => ∀ td, s.todos[i]? = some td →
            ∃ b, td.addedInPatch repo { step := k, pointer := i } commit s.prevCommit =
              .ok b)
          s.remainingTodos hall
      simp only [not_forall] at hidx
      obtain ⟨todo, htodo, hfail⟩ := hidx
      cases hres : todo.addedInPatch repo { step := k, pointer := idx } commit
          s.prevCommit with
      | ok b => exact absurd ⟨b, hres⟩ hfail
      | error err =>
        obtain ⟨s', hcb, hpt⟩ := blameCallback_err repo ctxDone hasCb k s commit examined
          idx later todo err hsplit hhash hctx hex htodo hres
        exact Or.inr (Or.inr (Or.inr ⟨hhash, rfl, err, s', examined, idx, later, todo, hcb,
          hsplit, hex, htodo, hres, hpt⟩))

theorem blameOf_cons_added (repo : Repository) (i : Nat) (todo : ToDo) (st : Step)
    (steps : List Step) (h : testAt repo i todo st = .ok true) :
    blameOf repo i todo (st :: steps) = some st.prev := by
  simp [blameOf, List.find?_cons, h]

theorem blameOf_cons_not_added (repo : Repository) (i : Nat) (todo : ToDo) (st : Step)
    (steps : List Step) (h : testAt repo i todo st ≠ .ok true) :
    blameOf repo i todo (st :: steps) = blameOf repo i todo steps := by
  simp [blameOf, List.find?_cons, h]

theorem pairSteps_cons_ne (k : Nat) (prev commit : ObjectCommit) (rest : List ObjectCommit)
    (h : prev.Hash ≠ commit.Hash) :
    pairSteps k prev (commit :: rest) =
      { call := k, snapshot := commit, prev := prev } :: pairSteps (k + 1) commit rest := by
  simp [pairSteps, h]

theorem pairSteps_cons_eq (k : Nat) (prev commit : ObjectCommit) (rest : List ObjectCommit)
    (h : prev.Hash = commit.Hash) :
    pairSteps k prev (commit :: rest) = pairSteps (k + 1) prev rest := by
  simp [pairSteps, h]

theorem walkSteps_cons_ne (ctxDone : Nat → Bool) (k : Nat) (prev commit : ObjectCommit)
    (rest : List ObjectCommit) (h : prev.Hash ≠ commit.Hash) (hctx : ctxDone k = false) :
    walkSteps ctxDone k prev (commit :: rest) =
      { call := k, snapshot := commit, prev := prev } ::
        walkSteps ctxDone (k + 1) commit rest := by
  simp [walkSteps, h, hctx]

theorem walkSteps_cons_done (ctxDone : Nat → Bool) (k : Nat) (prev commit : ObjectCommit)
    (rest : List ObjectCommit) (h : prev.Hash ≠ commit.Hash) (hctx : ctxDone k = true) :
    walkSteps ctxDone k prev (commit :: rest) = [] := by
  simp [walkSteps, h, hctx]

theorem walkSteps_cons_eq (ctxDone : Nat → Bool) (k : Nat) (prev commit : ObjectCommit)
    (rest : List ObjectCommit) (h : prev.Hash = commit.Hash) :
    walkSteps ctxDone k prev (commit :: rest) = walkSteps ctxDone (k + 1) prev rest := by
  simp [walkSteps, h]

/-- A walk in which the signal is never set has all the steps of the history. -/
theorem walkSteps_never (ctxDone : Nat → Bool) (hnever : ∀ j, ctxDone j = false) (k : Nat)
    (prev : ObjectCommit) (commits : List ObjectCommit) :
    walkSteps ctxDone k prev commits = pairSteps k prev commits := by
  induction commits generalizing k prev with
  | nil => rfl
  | cons commit rest ih =>
    by_cases h : prev.Hash = commit.Hash
    · rw [walkSteps_cons_eq _ _ _ _ _ h, pairSteps_cons_eq _ _ _ _ h, ih]
    · rw [walkSteps_cons_ne _ _ _ _ _ h (hnever k), pairSteps_cons_ne _ _ _ _ h, ih]

theorem resolved_nil (repo : Repository) (remaining : List Nat) (i : Nat) (td : ToDo) :
    resolved repo [] remaining i td = td := by
  unfold resolved
  split_ifs <;> rfl

theorem resolved_of_not_mem (repo : Repository) (steps : List Step) (remaining : List Nat)
    (i : Nat) (td : ToDo) (h : i ∉ remaining) : resolved repo steps remaining i td = td := by
  unfold resolved
  rw [if_neg h]

/-- A processed step followed by the rest of the walk is the walk. -/
theorem resolved_step (repo : Repository) (k : Nat) (prev commit : ObjectCommit)
    (steps : List Step) (rem : List Nat) (todos : List ToDo) (i : Nat) (td : ToDo)
    (htd : todos[i]? = some td)
    (hok : i ∈ rem →
      ∃ b, td.addedInPatch repo { step := k, pointer := i } commit prev = .ok b) :
    resolved repo steps (rem.filter (staysRemaining repo k commit prev todos)) i
        (attributed repo k commit prev rem i td) =
      resolved repo ({ call := k, snapshot := commit, prev := prev } :: steps) rem i td := by
  unfold resolved
  by_cases hi : i ∈ rem
  · obtain ⟨b, hb⟩ := hok hi
    have hb' : testAt repo i td { call := k, snapshot := commit, prev := prev } = .ok b := hb
    cases b with
    | true =>
      have hst : staysRemaining repo k commit prev todos i = false := by
        simp [staysRemaining, htd, hb]
      have hnot : i ∉ rem.filter (staysRemaining repo k commit prev todos) := by
        simp [List.mem_filter, hst]
      rw [if_neg hnot, if_pos hi, blameOf_cons_added _ _ _ _ _ hb']
      unfold attributed
      rw [if_pos ⟨hi, hb⟩]
    | false =>
      have hst : staysRemaining repo k commit prev todos i = true := by
        simp [staysRemaining, htd, hb]
      have hmem : i ∈ rem.filter (staysRemaining repo k commit prev todos) := by
        simp [List.mem_filter, hst, hi]
      have hna : td.addedInPatch repo { step := k, pointer := i } commit prev ≠ .ok true := by
        rw [hb]; simp
      have hna' : testAt repo i td { call := k, snapshot := commit, prev := prev } ≠
          .ok true := hna
      rw [if_pos hmem, if_pos hi, blameOf_cons_not_added _ _ _ _ _ hna',
        attributed_of_not_added _ _ _ _ _ _ _ hna]
  · have hnot : i ∉ rem.filter (staysRemaining repo k commit prev todos) :=
      fun h => hi (List.mem_filter.mp h).1
    rw [if_neg hnot, if_neg hi, attributed_of_not_mem _ _ _ _ _ _ _ hi]

/-- The todo objects after the callbacks for `commits` all returned nil. -/
theorem iterate_todos (repo : Repository) (ctxDone : Nat → Bool) (hasCb : Bool)
    (commits : List ObjectCommit) (k : Nat) (s s' : BlameState)
    (hiter : iterate repo ctxDone hasCb k s commits = some s') :
    ∀ i, s'.todos[i]? =
      (s.todos[i]?).map
        (resolved repo (pairSteps k s.prevCommit commits) s.remainingTodos i) := by
  induction commits generalizing k s with
  | nil =>
    simp only [iterate, Option.some.injEq] at hiter
    subst hiter
    intro i
    cases s.todos[i]? with
    | none => rfl
    | some td => simp [pairSteps, resolved_nil]
  | cons commit rest ih =>
    unfold iterate at hiter
    rcases blameCallback_cases repo ctxDone hasCb k s commit with
      ⟨hcb, _⟩ | ⟨hcb, hhash⟩ | ⟨hhash, _, hall, s1, hcb, hrem1, hprev1, hpt⟩ |
      ⟨_, _, err, s1, _, _, _, _, hcb, _⟩
    · rw [hcb] at hiter; cases hiter
    · rw [hcb] at hiter
      intro i
      rw [ih _ _ hiter i, pairSteps_cons_eq _ _ _ _ hhash]
    · rw [hcb] at hiter
      intro i
      rw [ih _ _ hiter i, hpt i, hrem1, hprev1, pairSteps_cons_ne _ _ _ _ hhash]
      cases htd : s.todos[i]? with
      | none => rfl
      | some td =>
        simp only [Option.map_some', Option.some.injEq]
        exact resolved_step repo k s.prevCommit commit _ s.remainingTodos s.todos i td
          htd (fun hi => hall i hi td htd)
    · rw [hcb] at hiter; cases hiter

theorem forEach_of_iterate (repo : Repository) (ctxDone : Nat → Bool) (hasCb : Bool)
    (before after : List ObjectCommit) (k : Nat) (s s' : BlameState)
    (hiter : iterate repo ctxDone hasCb k s before = some s') :
    forEach repo ctxDone hasCb k s (before ++ after) =
      forEach repo ctxDone hasCb (k + before.length) s' after := by
  induction before generalizing k s with
  | nil =>
    simp only [iterate, Option.some.injEq] at hiter
    subst hiter
    rfl
  | cons commit rest ih =>
    unfold iterate at hiter
    rw [List.cons_append, forEach]
    cases hcb : blameCallback repo ctxDone hasCb k s commit with
    | next s1 =>
      rw [hcb] at hiter
      simp only
      rw [ih _ _ hiter, List.length_cons]
      congr 1
      omega
    | stop s1 => rw [hcb] at hiter; cases hiter
    | fail err s1 => rw [hcb] at hiter; cases hiter

theorem blameInit_getElem (t : List ToDo) (fromCommit : ObjectCommit) (steps : List Step)
    (repo : Repository) (i : Nat) :
    ((blameInit t fromCommit).todos[i]?).map
        (resolved repo steps (blameInit t fromCommit).remainingTodos i) =
      (t[i]?).map (fun td => withOrigin td (blameOf repo i td steps)) := by
  show (t[i]?).map (resolved repo steps (List.range t.length) i) = _
  cases htd : t[i]? with
  | none => rfl
  | some td =>
    have hlt : i < t.length := by
      rcases Nat.lt_or_ge i t.length with h | h
      · exact h
      · rw [List.getElem?_eq_none h] at htd; cases htd
    simp [resolved, List.mem_range, hlt]

end Todos

namespace Todos

/-! ## Errors -/

/-- Claim C17. Let the callbacks for the commits `before` have returned nil and left the
state `s`, and let the step for the next commit be processed; when in that step the tests
of the pointers `examined` succeed and the test of the next pointer fails with `err`
(an ancestor test or a diff that cannot be computed at that call), `FindBlame` returns
`err`, and every todo is as it was at the call except for its commit: a todo attributed
in one of the earlier steps has the commit of that step, a todo examined earlier in the
failing step with the answer yes has the previous commit of that step, and every other
todo has the commit it had at the call. -/
theorem C17_error_halts_without_rollback (t : List ToDo) (ctxDone : Nat → Bool)
    (repo : Repository) (fromCommit : ObjectCommit) (hasCb : Bool)
    (before : List ObjectCommit) (commit : ObjectCommit) (after : List ObjectCommit)
    (s : BlameState) (examined : List Nat) (idx : Nat) (later : List Nat) (todo : ToDo)
    (err : HistoryError)
    (hlog : repo.Log fromCommit.Hash = .ok (before ++ commit :: after))
    (hiter : iterate repo ctxDone hasCb 0 (blameInit t fromCommit) before = some s)
    (hrem : s.remainingTodos = examined ++ idx :: later)
    (hhash : s.prevCommit.Hash ≠ commit.Hash)
    (hctx : ctxDone before.length = false)
    (hexamined : ∀ i ∈ examined, ∀ td, s.todos[i]? = some td →
      ∃ b, td.addedInPatch repo { step := before.length, pointer := i } commit
        s.prevCommit = .ok b)
    (htodo : s.todos[idx]? = some todo)
    (herr : todo.addedInPatch repo { step := before.length, pointer := idx } commit
      s.prevCommit = .error err) :
    (ToDos.FindBlame t ctxDone repo fromCommit hasCb).err = some err ∧
    ∀ i, (ToDos.FindBlame t ctxDone repo fromCommit hasCb).todos[i]? =
      (t[i]?).map (fun td =>
        attributed repo before.length commit s.prevCommit examined i
          (withOrigin td (blameOf repo i td (pairSteps 0 fromCommit before)))) := by
  have hk : 0 + before.length = before.length := Nat.zero_add _
  obtain ⟨s', hcb, hpt⟩ := blameCallback_err repo ctxDone hasCb before.length s commit
    examined idx later todo err hrem hhash hctx hexamined htodo herr
  have hrun : ToDos.FindBlame t ctxDone repo fromCommit hasCb =
      { err := some err, todos := s'.todos, events := s'.events } := by
    unfold ToDos.FindBlame
    rw [hlog]
    simp only
    rw [forEach_of_iterate repo ctxDone hasCb before (commit :: after) 0 _ s hiter, hk,
      forEach, hcb]
  rw [hrun]
  refine ⟨rfl, ?_⟩
  intro i
  show s'.todos[i]? = _
  rw [hpt i, iterate_todos repo ctxDone hasCb before 0 _ s hiter i,
    blameInit_getElem t fromCommit _ repo i]
  cases t[i]? with
  | none => rfl
  | some td => rfl

/-- Witness of claim C17: in the step from `b` to `c` the test of the todo in `f` succeeds
and gives it the commit `c`; then the diff for the todo in `g` fails; the error is
returned and the todo in `f` keeps the commit it was given earlier in the same step. -/
theorem C17_error_halts_without_rollback_witness :
    ToDos.FindBlame [todoIn "f".toList, todoIn "g".toList] neverDone partlyBrokenRepo
        commitC true =
      { err := some { code := 1 },
        todos := [{ todoIn "f".toList with Commit := some commitC }, todoIn "g".toList],
        events := [Event.ancestorTest commitB commitC, Event.diff commitB commitC,
                   Event.ancestorTest commitB commitC, Event.diff commitB commitC] } ∧
    ((ToDos.FindBlame [todoIn "f".toList, todoIn "g".toList] neverDone partlyBrokenRepo
        commitC true).err = some { code := 1 } ∧
     ∀ i, (ToDos.FindBlame [todoIn "f".toList, todoIn "g".toList] neverDone partlyBrokenRepo
        commitC true).todos[i]? =
      ([todoIn "f".toList, todoIn "g".toList][i]?).map (fun td =>
        attributed partlyBrokenRepo [commitC].length commitB
          (blameInit [todoIn "f".toList, todoIn "g".toList] commitC).prevCommit [0] i
          (withOrigin td (blameOf partlyBrokenRepo i td (pairSteps 0 commitC [commitC]))))) :=
  ⟨by decide,
   C17_error_halts_without_rollback [todoIn "f".toList, todoIn "g".toList] neverDone
     partlyBrokenRepo commitC true [commitC] commitB [commitA]
     (blameInit [todoIn "f".toList, todoIn "g".toList] commitC) [0] 1 []
     (todoIn "g".toList) { code := 1 } rfl (by decide) (by decide) (by decide) rfl
     (fun i hi td htd => by
       have hi0 : i = 0 := by simpa using hi
       subst hi0
       have : td = todoIn "f".toList := by
         have h0 : (blameInit [todoIn "f".toList, todoIn "g".toList] commitC).todos[0]? =
             some (todoIn "f".toList) := rfl
         rw [h0] at htd
         exact (Option.some.inj htd).symm
       subst this
       exact ⟨true, by decide⟩)
     rfl (by decide)⟩

end Todos

namespace Todos

/-! ## The whole walk -/

/-- A walk that returns no error, whatever the cancellation signal does: every todo that
was remaining has the origin `blameOf` finds in the steps up to the cancellation. -/
theorem forEach_todos (repo : Repository) (ctxDone : Nat → Bool) (hasCb : Bool)
    (commits : List ObjectCommit) (k : Nat) (s : BlameState)
    (hnoerr : (forEach repo ctxDone hasCb k s commits).err = none) :
    ∀ i, (forEach repo ctxDone hasCb k s commits).todos[i]? =
      (s.todos[i]?).map
        (resolved repo (walkSteps ctxDone k s.prevCommit commits) s.remainingTodos i) := by
  induction commits generalizing k s with
  | nil =>
    intro i
    show s.todos[i]? = _
    cases s.todos[i]? with
    | none => rfl
    | some td => simp [walkSteps, resolved_nil]
  | cons commit rest ih =>
    unfold forEach at hnoerr ⊢
    rcases blameCallback_cases repo ctxDone hasCb k s commit with
      ⟨hcb, hstop⟩ | ⟨hcb, hhash⟩ | ⟨hhash, hctx, hall, s1, hcb, hrem1, hprev1, hpt⟩ |
      ⟨_, _, err, s1, _, _, _, _, hcb, _⟩
    · rw [hcb]
      intro i
      show s.todos[i]? = _
      rcases hstop with hrem | ⟨hhash, hdone⟩
      · cases s.todos[i]? with
        | none => rfl
        | some td => simp [resolved, hrem]
      · rw [walkSteps_cons_done _ _ _ _ _ hhash hdone]
        cases s.todos[i]? with
        | none => rfl
        | some td => simp [resolved_nil]
    · rw [hcb] at hnoerr ⊢
      intro i
      simp only at hnoerr ⊢
      rw [ih _ _ hnoerr i, walkSteps_cons_eq _ _ _ _ _ hhash]
    · rw [hcb] at hnoerr ⊢
      intro i
      simp only at hnoerr ⊢
      rw [ih _ _ hnoerr i, hpt i, hrem1, hprev1, walkSteps_cons_ne _ _ _ _ _ hhash hctx]
      cases htd : s.todos[i]? with
      | none => rfl
      | some td =>
        simp only [Option.map_some', Option.some.injEq]
        exact resolved_step repo k s.prevCommit commit _ s.remainingTodos s.todos i td
          htd (fun hi => hall i hi td htd)
    · rw [hcb] at hnoerr
      cases hnoerr

/-- Every walk, with or without error: a todo that was not remaining is untouched, and a
todo that was remaining is either untouched or has the `prev` of the first step, among
the steps up to the cancellation, at which its test says yes. -/
theorem forEach_changed (repo : Repository) (ctxDone : Nat → Bool) (hasCb : Bool)
    (commits : List ObjectCommit) (k : Nat) (s : BlameState) (i : Nat) (td : ToDo)
    (htd : s.todos[i]? = some td) :
    (i ∉ s.remainingTodos →
      (forEach repo ctxDone hasCb k s commits).todos[i]? = some td) ∧
    ((forEach repo ctxDone hasCb k s commits).todos[i]? = some td ∨
      ∃ pre st post, walkSteps ctxDone k s.prevCommit commits = pre ++ st :: post ∧
        (∀ st' ∈ pre, testAt repo i td st' = .ok false) ∧
        testAt repo i td st = .ok true ∧
        (forEach repo ctxDone hasCb k s commits).todos[i]? =
          some (withOrigin td (some st.prev))) := by
  induction commits generalizing k s td with
  | nil => exact ⟨fun _ => htd, Or.inl htd⟩
  | cons commit rest ih =>
    unfold forEach
    rcases blameCallback_cases repo ctxDone hasCb k s commit with
      ⟨hcb, _⟩ | ⟨hcb, hhash⟩ | ⟨hhash, hctx, hall, s1, hcb, hrem1, hprev1, hpt⟩ |
      ⟨hhash, hctx, err, s1, examined, idx, later, todo, hcb, hsplit, _, _, _, hpt⟩
    · rw [hcb]
      exact ⟨fun _ => htd, Or.inl htd⟩
    · rw [hcb]
      simp only
      rw [walkSteps_cons_eq _ _ _ _ _ hhash]
      exact ih (k + 1) s td htd
    · rw [hcb]
      simp only
      rw [walkSteps_cons_ne _ _ _ _ _ hhash hctx]
      have h1 : s1.todos[i]? =
          some (attributed repo k commit s.prevCommit s.remainingTodos i td) := by
        rw [hpt i, htd]; rfl
      have ih1 := ih (k + 1) s1 _ h1
      rw [hprev1] at ih1
      by_cases hi : i ∈ s.remainingTodos
      · refine ⟨fun h => absurd hi h, ?_⟩
        obtain ⟨b, hb⟩ := hall i hi td htd
        have hb' : testAt repo i td { call := k, snapshot := commit, prev := s.prevCommit }
            = .ok b := hb
        cases b with
        | true =>
          have hatt : attributed repo k commit s.prevCommit s.remainingTodos i td =
              withOrigin td (some s.prevCommit) := by
            unfold attributed; rw [if_pos ⟨hi, hb⟩]
          have hst : staysRemaining repo k commit s.prevCommit s.todos i = false := by
            simp [staysRemaining, htd, hb]
          have hnot : i ∉ s1.remainingTodos := by
            rw [hrem1]; simp [List.mem_filter, hst]
          have := ih1.1 hnot
          rw [hatt] at this
          exact Or.inr ⟨[], _, _, rfl, fun st' h => by simp at h, hb', this⟩
        | false =>
          have hna : td.addedInPatch repo { step := k, pointer := i } commit s.prevCommit ≠
              .ok true := by rw [hb]; simp
          have hatt : attributed repo k commit s.prevCommit s.remainingTodos i td = td :=
            attributed_of_not_added _ _ _ _ _ _ _ hna
          rw [hatt] at ih1
          rcases ih1.2 with h | ⟨pre, st, post, hsteps, hpre, hst, hres⟩
          · exact Or.inl h
          · refine Or.inr ⟨_ :: pre, st, post, by rw [hsteps]; rfl, ?_, hst, hres⟩
            intro st' hst'
            rcases List.mem_cons.mp hst' with rfl | h
            · exact hb'
            · exact hpre st' h
      · have hatt : attributed repo k commit s.prevCommit s.remainingTodos i td = td :=
          attributed_of_not_mem _ _ _ _ _ _ _ hi
        rw [hatt] at ih1
        have hnot : i ∉ s1.remainingTodos := by
          rw [hrem1]; exact fun h => hi (List.mem_filter.mp h).1
        exact ⟨fun _ => ih1.1 hnot, Or.inl (ih1.1 hnot)⟩
    · rw [hcb]
      simp only
      rw [walkSteps_cons_ne _ _ _ _ _ hhash hctx]
      have h1 : s1.todos[i]? =
          some (attributed repo k commit s.prevCommit examined i td) := by
        rw [hpt i, htd]; rfl
      by_cases hcond : i ∈ examined ∧
          td.addedInPatch repo { step := k, pointer := i } commit s.prevCommit = .ok true
      · have hatt : attributed repo k commit s.prevCommit examined i td =
            withOrigin td (some s.prevCommit) := by
          unfold attributed; rw [if_pos hcond]
        rw [hatt] at h1
        refine ⟨fun h => absurd (by rw [hsplit]; simp [hcond.1]) h, ?_⟩
        exact Or.inr ⟨[], { call := k, snapshot := commit, prev := s.prevCommit }, _, rfl,
          fun st' h => by simp at h, hcond.2, h1⟩
      · have hatt : attributed repo k commit s.prevCommit examined i td = td := by
          unfold attributed; rw [if_neg hcond]
        rw [hatt] at h1
        exact ⟨fun _ => h1, Or.inl h1⟩

/-- Claim C13. When the iterator opens: (1) in every walk, whatever the cancellation
signal and the answers of the repository, a todo ends either as it was or with the commit
`prev` of the first step `(S, prev)` at which its test `addedInPatch(S, prev)` is true,
every earlier step having said no; the steps are the snapshots of the iterator paired
with the previous snapshot (first `from`), snapshots with the hash of the previous one
being skipped, up to the first snapshot at which the signal is set; (2) when `FindBlame`
returns no error (also when the walk is cancelled part-way), every todo has exactly that
commit when there is such a step, and is as it was when there is none; (3) at every
processed step in which the tests succeed, the callback gives the previous commit to
exactly the remaining todos whose test is true, keeps the other remaining pointers in
their order (so a todo that was attributed, or was not remaining, is not examined again),
and makes the snapshot the previous commit. -/
theorem C13_blame_attribution (t : List ToDo) (ctxDone : Nat → Bool) (repo : Repository)
    (fromCommit : ObjectCommit) (hasCb : Bool) (commits : List ObjectCommit)
    (hlog : repo.Log fromCommit.Hash = .ok commits) :
    (∀ (i : Nat) (td : ToDo), t[i]? = some td →
      (ToDos.FindBlame t ctxDone repo fromCommit hasCb).todos[i]? = some td ∨
      ∃ pre st post, walkSteps ctxDone 0 fromCommit commits = pre ++ st :: post ∧
        (∀ st' ∈ pre, testAt repo i td st' = .ok false) ∧
        testAt repo i td st = .ok true ∧
        (ToDos.FindBlame t ctxDone repo fromCommit hasCb).todos[i]? =
          some (withOrigin td (some st.prev))) ∧
    ((ToDos.FindBlame t ctxDone repo fromCommit hasCb).err = none →
      ∀ i : Nat, (ToDos.FindBlame t ctxDone repo fromCommit hasCb).todos[i]? =
        (t[i]?).map (fun td =>
          withOrigin td (blameOf repo i td (walkSteps ctxDone 0 fromCommit commits)))) ∧
    (∀ (k : Nat) (s : BlameState) (commit : ObjectCommit),
      s.remainingTodos.length ≠ 0 → s.prevCommit.Hash ≠ commit.Hash →
      ctxDone k = false →
      (∀ i ∈ s.remainingTodos, ∀ td, s.todos[i]? = some td →
        ∃ b, td.addedInPatch repo { step := k, pointer := i } commit s.prevCommit = .ok b) →
      ∃ s', blameCallback repo ctxDone hasCb k s commit = .next s' ∧
        s'.remainingTodos =
          s.remainingTodos.filter (staysRemaining repo k commit s.prevCommit s.todos) ∧
        s'.prevCommit = commit ∧
        ∀ i, s'.todos[i]? =
          (s.todos[i]?).map (attributed repo k commit s.prevCommit s.remainingTodos i)) := by
  have hrun : ToDos.FindBlame t ctxDone repo fromCommit hasCb =
      forEach repo ctxDone hasCb 0 (blameInit t fromCommit) commits := by
    unfold ToDos.FindBlame
    rw [hlog]
  refine ⟨?_, ?_, fun k s commit hrem hhash hctx hok =>
    blameCallback_ok repo ctxDone hasCb k s commit hrem hhash hctx hok⟩
  · intro i td htd
    rw [hrun]
    exact (forEach_changed repo ctxDone hasCb commits 0 (blameInit t fromCommit) i td htd).2
  · intro hnoerr i
    rw [hrun] at hnoerr ⊢
    rw [forEach_todos repo ctxDone hasCb commits 0 _ hnoerr i,
      blameInit_getElem t fromCommit _ repo i]
    rfl

/-- Witness of claim C13: the walk over `c`, `b`, `a` is cancelled at `a`. The todo in `f`,
whose text the patch from `b` to `c` adds, was given the commit `c` in the step before the
cancellation and keeps it; the todo in `g`, whose text the patch from `a` to `b` adds, is
left without a commit, because that step is not processed. -/
theorem C13_blame_attribution_witness :
    ToDos.FindBlame [todoIn "f".toList, todoIn "g".toList] doneFromTwo twoFileRepo
        commitC true =
      { err := none,
        todos := [{ todoIn "f".toList with Commit := some commitC }, todoIn "g".toList],
        events := [Event.ancestorTest commitB commitC, Event.diff commitB commitC,
                   Event.ancestorTest commitB commitC, Event.diff commitB commitC,
                   Event.progress commitB 1] } ∧
    walkSteps doneFromTwo 0 commitC [commitC, commitB, commitA] =
      [{ call := 1, snapshot := commitB, prev := commitC }] ∧
    ∀ i : Nat, (ToDos.FindBlame [todoIn "f".toList, todoIn "g".toList] doneFromTwo
        twoFileRepo commitC true).todos[i]? =
      ([todoIn "f".toList, todoIn "g".toList][i]?).map (fun td =>
        withOrigin td (blameOf twoFileRepo i td
          (walkSteps doneFromTwo 0 commitC [commitC, commitB, commitA]))) :=
  ⟨by decide, by decide,
   (C13_blame_attribution [todoIn "f".toList, todoIn "g".toList] doneFromTwo twoFileRepo
     commitC true [commitC, commitB, commitA] rfl).2.1 (by decide)⟩

/-! ## Unknown origin -/

/-- The walk in which no test fails returns no error, and a todo for which no step says
yes is left as it was. -/
theorem forEach_unknown (repo : Repository) (ctxDone : Nat → Bool) (hasCb : Bool)
    (commits : List ObjectCommit) (k : Nat) (s : BlameState)
    (hok : ∀ (i : Nat) (td : ToDo), s.todos[i]? = some td →
      ∀ st ∈ pairSteps k s.prevCommit commits, ∃ b, testAt repo i td st = .ok b) :
    (forEach repo ctxDone hasCb k s commits).err = none ∧
    ∀ (i : Nat) (td : ToDo), s.todos[i]? = some td →
      (∀ st ∈ pairSteps k s.prevCommit commits, testAt repo i td st ≠ .ok true) →
      (forEach repo ctxDone hasCb k s commits).todos[i]? = some td := by
  induction commits generalizing k s with
  | nil => exact ⟨rfl, fun i td htd _ => htd⟩
  | cons commit rest ih =>
    unfold forEach
    rcases blameCallback_cases repo ctxDone hasCb k s commit with
      ⟨hcb, _⟩ | ⟨hcb, hhash⟩ | ⟨hhash, _, hall, s1, hcb, hrem1, hprev1, hpt⟩ |
      ⟨hhash, _, err, s1, _, idx, _, todo, hcb, _, _, htodo, herr, _⟩
    · rw [hcb]
      exact ⟨rfl, fun i td htd _ => htd⟩
    · rw [hcb]
      simp only
      rw [pairSteps_cons_eq _ _ _ _ hhash] at hok
      have := ih (k + 1) s hok
      refine ⟨this.1, fun i td htd hno => this.2 i td htd ?_⟩
      rw [pairSteps_cons_eq _ _ _ _ hhash] at hno
      exact hno
    · rw [hcb]
      simp only
      rw [pairSteps_cons_ne _ _ _ _ hhash] at hok
      have hok1 : ∀ (i : Nat) (td : ToDo), s1.todos[i]? = some td →
          ∀ st ∈ pairSteps (k + 1) s1.prevCommit rest, ∃ b, testAt repo i td st = .ok b := by
        intro i td1 htd1 st hst
        rw [hpt i] at htd1
        cases htd : s.todos[i]? with
        | none => rw [htd] at htd1; cases htd1
        | some td =>
          rw [htd] at htd1
          simp only [Option.map_some', Option.some.injEq] at htd1
          rw [← htd1]
          unfold testAt
          rw [addedInPatch_attributed]
          rw [hprev1] at hst
          exact hok i td htd st (by simp [hst])
      have := ih (k + 1) s1 hok1
      refine ⟨this.1, fun i td htd hno => this.2 i td ?_ ?_⟩
      · rw [pairSteps_cons_ne _ _ _ _ hhash] at hno
        rw [hpt i, htd]
        simp only [Option.map_some', Option.some.injEq]
        exact attributed_of_not_added _ _ _ _ _ _ _
          (hno { call := k, snapshot := commit, prev := s.prevCommit } (by simp))
      · rw [pairSteps_cons_ne _ _ _ _ hhash] at hno
        rw [hprev1]
        exact fun st hst => hno st (by simp [hst])
    · rw [pairSteps_cons_ne _ _ _ _ hhash] at hok
      obtain ⟨b, hb⟩ := hok idx todo htodo
        { call := k, snapshot := commit, prev := s.prevCommit } (by simp)
      have : todo.addedInPatch repo { step := k, pointer := idx } commit s.prevCommit =
          .ok b := hb
      rw [herr] at this
      cases this

/-- Claim C15. When the iterator opens and no test of the walk fails, `FindBlame` returns
no error, whatever the cancellation signal does, and a todo for which no step of the
history says yes (in particular every todo when the history is `from` alone) is exactly
as it was before the call. -/
theorem C15_unknown_origin_is_not_an_error (t : List ToDo) (ctxDone : Nat → Bool)
    (repo : Repository) (fromCommit : ObjectCommit) (hasCb : Bool)
    (commits : List ObjectCommit)
    (hlog : repo.Log fromCommit.Hash = .ok commits)
    (hok : ∀ (i : Nat) (td : ToDo), t[i]? = some td →
      ∀ st ∈ pairSteps 0 fromCommit commits, ∃ b, testAt repo i td st = .ok b) :
    (ToDos.FindBlame t ctxDone repo fromCommit hasCb).err = none ∧
    ∀ (i : Nat) (td : ToDo), t[i]? = some td →
      (∀ st ∈ pairSteps 0 fromCommit commits, testAt repo i td st ≠ .ok true) →
      (ToDos.FindBlame t ctxDone repo fromCommit hasCb).todos[i]? = some td := by
  unfold ToDos.FindBlame
  rw [hlog]
  exact forEach_unknown repo ctxDone hasCb commits 0 (blameInit t fromCommit) hok

/-- Witness of claim C15: `from` is the root commit, the history is `from` alone, and the
todo is left without a commit. -/
theorem C15_unknown_origin_is_not_an_error_witness :
    pairSteps 0 commitA [commitA] = [] ∧
    (ToDos.FindBlame [todoWith none] neverDone
        { exampleRepo with Log := fun _ => .ok [commitA] } commitA true).err = none ∧
    ∀ (i : Nat) (td : ToDo), [todoWith none][i]? = some td →
      (∀ st ∈ pairSteps 0 commitA [commitA],
        testAt { exampleRepo with Log := fun _ => .ok [commitA] } i td st ≠ .ok true) →
      (ToDos.FindBlame [todoWith none] neverDone
        { exampleRepo with Log := fun _ => .ok [commitA] } commitA true).todos[i]? = some td :=
  ⟨by decide,
   C15_unknown_origin_is_not_an_error [todoWith none] neverDone
     { exampleRepo with Log := fun _ => .ok [commitA] } commitA true [commitA] rfl
     (fun _ _ _ st hst => by simp [pairSteps] at hst)⟩

end Todos
